import Mathlib

/-
Verification development for the local-repo-search tool.

The repository consists of four Python modules: utils.py (URL synthesis,
GitHub REST client, pagination parsing, paginated collection, local git
metadata lookup), clone_orgs.py (repository catalog and clone orchestration),
search.py (keyword scanning and tree aggregation), repo_filter.py.

This file shallowly embeds the relevant functions.  Python strings are
modelled as Lean String values, with the character-level operations
(split, strip, slicing, substring search, lower-casing) implemented as
structural functions over List Char so that concrete instances evaluate
inside the kernel.  Python dictionaries with dynamic keys are modelled as
association lists.  Python functions that walk the filesystem take the
directory tree (or the relevant listing) as an explicit argument.
-/

/- Character helpers. -/

/-- ASCII lower-casing of one character, the behaviour of Python str.lower
on ASCII input: chars 65..90 are shifted by 32, everything else is kept. -/
def charLower (c : Char) : Char :=
  if 65 ≤ c.toNat ∧ c.toNat ≤ 90 then Char.ofNat (c.toNat + 32) else c

/-- Whitespace test used by Python str.strip. -/
def isSpaceChar (c : Char) : Bool :=
  c = ' ' || c = '\t' || c = '\n' || c = '\r' || c = '\x0b' || c = '\x0c'

/-- Backslash normalisation: the char map underlying .replace of one
backslash by one forward slash. -/
def slashify (c : Char) : Char := if c = '\\' then '/' else c

/- List-of-char helpers mirroring Python string primitives. -/

/-- Python s.split(sep) for a one-character separator, on char lists.
Always returns a non-empty list; splitting the empty string gives one
empty piece, as in Python. -/
def splitOnChar (c : Char) : List Char → List (List Char)
  | [] => [[]]
  | x :: xs =>
    match splitOnChar c xs with
    | [] => [[]]
    | h :: t => if x = c then [] :: h :: t else (x :: h) :: t

/-- Python sep.join(pieces) for a one-character separator. -/
def joinOn (c : Char) : List (List Char) → List Char
  | [] => []
  | [p] => p
  | p :: ps => p ++ c :: joinOn c ps

/-- Python s.strip() on char lists: drop whitespace from both ends. -/
def trimList (cs : List Char) : List Char :=
  ((cs.dropWhile isSpaceChar).reverse.dropWhile isSpaceChar).reverse

/-- Python substring test (sub in s) on char lists. -/
def pyContainsL (sub : List Char) : List Char → Bool
  | [] => sub.isEmpty
  | x :: xs => sub.isPrefixOf (x :: xs) || pyContainsL sub xs

/-- Python s.replace(pat, "") for a non-empty pattern, on char lists.
The fuel argument is the length of the subject and only makes the
recursion structural; every step consumes at least one character, so the
fuel is never exhausted when it starts at the subject's length. -/
def removeAllL (pat : List Char) : Nat → List Char → List Char
  | _, [] => []
  | 0, s => s
  | fuel + 1, x :: xs =>
    if pat.isPrefixOf (x :: xs) then removeAllL pat fuel ((x :: xs).drop pat.length)
    else x :: removeAllL pat fuel xs

/-- Python s.count(sub) for a non-empty pattern: non-overlapping
occurrences, scanning left to right and skipping the length of the
pattern after each match.  Fuel as in removeAllL. -/
def countOccL (pat : List Char) : Nat → List Char → Nat
  | _, [] => 0
  | 0, _ => 0
  | fuel + 1, x :: xs =>
    if pat.isPrefixOf (x :: xs) then 1 + countOccL pat fuel ((x :: xs).drop pat.length)
    else countOccL pat fuel xs

/- String wrappers. -/

/-- Python s.lower(), ASCII fragment. -/
def pyLower (s : String) : String := String.mk (s.data.map charLower)

/-- Python s.strip(). -/
def pyTrim (s : String) : String := String.mk (trimList s.data)

/-- Python s[1:-1]: drop the first and the last character. -/
def pySlice1m1 (s : String) : String := String.mk ((s.data.drop 1).dropLast)

/-- Python s.split(sep) for a one-character separator. -/
def splitS (c : Char) (s : String) : List String := (splitOnChar c s.data).map String.mk

/-- Python substring test sub in s. -/
def pyContains (s sub : String) : Bool := pyContainsL sub.data s.data

/-- Python s.count(sub).  An empty pattern has len(s) + 1 occurrences,
exactly as in Python. -/
def pyCount (s pat : String) : Nat :=
  if pat.data.isEmpty then s.data.length + 1
  else countOccL pat.data s.data.length s.data

/-- Python s.replace(old, "") for a non-empty old (both call sites in the
source pass a non-empty pattern). -/
def pyRemoveAll (s pat : String) : String :=
  if pat.data.isEmpty then s else String.mk (removeAllL pat.data s.data.length s.data)

/-- Backslash-to-forward-slash normalisation, Python s.replace of a
one-character pattern by a one-character replacement. -/
def normSlash (s : String) : String := String.mk (s.data.map slashify)

/- utils.py: file_url. -/

/-- utils.file_url: convert a local filename to the file's URL on GitHub.
The source drops the first 15 characters of the backslash-normalised
path (the slice [15:]), joins the first two remaining path segments as
org/repo, appends /blob/master/ and the rest, and strips a trailing
"/blob/master/" (13 characters) when the URL ends with it. -/
def file_url (filename : String) : String :=
  let gh_path := (normSlash filename).data.drop 15
  let parts := splitOnChar '/' gh_path
  let url := "https://github.com/".data ++ joinOn '/' (parts.take 2)
      ++ "/blob/master/".data ++ joinOn '/' (parts.drop 2)
  if "/blob/master/".data.isSuffixOf url then String.mk (url.take (url.length - 13))
  else String.mk url

/-- Comparison definition for claim C1, following the SPEC's words rather
than the source: strip the configured cache-root prefix (after backslash
normalisation) from the local path, read the remainder as org/repo/path,
map it to the blob URL, and collapse to the bare repo URL when the path
below the repository root is empty. -/
def fileUrlSpec (cacheRoot filename : String) : String :=
  let p := (normSlash filename).data
  let r := (normSlash cacheRoot).data
  let rel := if (r ++ ['/']).isPrefixOf p then p.drop (r.length + 1) else p
  let parts := splitOnChar '/' rel
  let orgrepo := joinOn '/' (parts.take 2)
  let rest := joinOn '/' (parts.drop 2)
  if rest.isEmpty then String.mk ("https://github.com/".data ++ orgrepo)
  else String.mk ("https://github.com/".data ++ orgrepo ++ "/blob/master/".data ++ rest)

/- utils.py: github_pagination. -/

/-- The initial retval dictionary of utils.github_pagination.  Python
initialises page entries to the integer 0 and URL entries to None; both
kinds are modelled as strings here, with "0" and "" as the neutral
values (the loop in github_allpages only tests truthiness of the URL,
and None and "" are both falsy). -/
def initLinks : List (String × String) :=
  [("firstpage", "0"), ("firstURL", ""), ("prevpage", "0"), ("prevURL", ""),
   ("nextpage", "0"), ("nextURL", ""), ("lastpage", "0"), ("lastURL", "")]

/-- Assignment retval[k] = v on an association list. -/
def dictSet : List (String × String) → String → String → List (String × String)
  | [], k, v => [(k, v)]
  | (k0, v0) :: rest, k, v =>
    if k0 = k then (k, v) :: rest else (k0, v0) :: dictSet rest k v

/-- Lookup retval[k] with a default. -/
def lookupD : List (String × String) → String → String → String
  | [], _, d => d
  | (k0, v0) :: rest, k, d => if k0 = k then v0 else lookupD rest k d

/-- The relation name parsed from one link entry:
link.split(";")[-1].split("=")[-1].strip()[1:-1]. -/
def linkTypeOf (link : String) : String :=
  pySlice1m1 (pyTrim ((splitS '=' ((splitS ';' link).getLastD "")).getLastD ""))

/-- The URL parsed from one link entry: link.split(";")[0].strip()[1:-1]. -/
def linkUrlOf (link : String) : String :=
  pySlice1m1 (pyTrim ((splitS ';' link).headD ""))

/-- The page number utils.github_pagination stores for a URL:
url.split("?")[-1].split("=")[-1].strip() — the text after the last "="
of the part after the last "?". -/
def pageOfUrl (url : String) : String :=
  pyTrim ((splitS '=' ((splitS '?' url).getLastD "")).getLastD "")

/-- utils.github_pagination on a link header string: split on ",", and for
each entry store the page number and the URL under keys derived from the
relation name. -/
def github_pagination (link_string : String) : List (String × String) :=
  (splitS ',' link_string).foldl
    (fun retval link =>
      dictSet (dictSet retval (linkTypeOf link ++ "page") (pageOfUrl (linkUrlOf link)))
        (linkTypeOf link ++ "URL") (linkUrlOf link))
    initLinks

/-- Comparison definition for claim C5, following the SPEC's words rather
than the source: the value of the page query parameter of a URL — the
text after "page=" in the first &-separated component of the query
string that starts with "page=". -/
def pageParam (url : String) : String :=
  match splitOnChar '?' url.data with
  | [] => ""
  | _ :: qs =>
    match (splitOnChar '&' (joinOn '?' qs)).find? (fun p => "page=".data.isPrefixOf p) with
    | some p => String.mk (p.drop 5)
    | none => ""

/- utils.py: github_rest_api and github_allpages. -/

/-- An HTTP response as seen by the source: a status code, the JSON-array
body (its elements abstracted to naturals), and the optional Link
header.  requests' response.ok is status_code < 400. -/
structure Resp where
  status : Nat
  text : List Nat
  linkHdr : Option String
deriving DecidableEq, Repr

/-- response.ok of the requests library. -/
def respOk (r : Resp) : Bool := r.status < 400

/-- utils.github_rest_api, abstracted over the network (the server maps an
endpoint to its response).  A missing endpoint (None, or the empty
string, both falsy in Python) is reported and yields None instead of a
response; otherwise the GET is performed and the response returned. -/
def github_rest_api (endpoint : Option String) (server : String → Resp) : Option Resp :=
  match endpoint with
  | none => none
  | some ep => if ep = "" then none else some (server ep)

/-- The parsed pagination links of a response: utils.github_pagination
applied to the Link header, or the neutral dictionary when the header is
absent (the KeyError branch of the source). -/
def pagelinksOf (r : Resp) : List (String × String) :=
  match r.linkHdr with
  | none => initLinks
  | some s => github_pagination s

/-- utils.github_allpages: drive github_rest_api across all pages, extend
the payload with each OK page's elements, follow pagelinks["nextURL"]
until it is falsy.  The while-True loop is modelled with fuel; running
out of fuel, and the AttributeError raised by dereferencing a None
response (response.status_code on None), are both modelled as errors. -/
def github_allpages (server : String → Resp) : Option String → Nat → Except String (List Nat)
  | _, 0 => Except.error "out of fuel"
  | endpoint, fuel + 1 =>
    match github_rest_api endpoint server with
    | none => Except.error "AttributeError: NoneType has no attribute status_code"
    | some response =>
      let thispage := if respOk response then response.text else []
      let nextEp := lookupD (pagelinksOf response) "nextURL" ""
      if nextEp = "" then Except.ok thispage
      else
        match github_allpages server (some nextEp) fuel with
        | Except.ok rest => Except.ok (thispage ++ rest)
        | Except.error e => Except.error e

/-- A server serving a finite chain of status-200 pages: each page's Link
header resolves (through the real github_pagination parser) to the next
endpoint in the list, and the last page omits the next link — its parsed
pagination links carry no nextURL, whether because it has no Link header
at all or because its Link header holds only other relations (prev,
first, last).  All endpoints are non-empty strings. -/
def isChain (server : String → Resp) : List String → List (List Nat) → Prop
  | [e], [b] => e ≠ "" ∧ (server e).status = 200 ∧ (server e).text = b ∧
      lookupD (pagelinksOf (server e)) "nextURL" "" = ""
  | e :: e2 :: es, b :: bs =>
    e ≠ "" ∧
    (∃ hdr, server e = { status := 200, text := b, linkHdr := some hdr } ∧
      lookupD (github_pagination hdr) "nextURL" "" = e2) ∧
    isChain server (e2 :: es) bs
  | _, _ => False

/- utils.py: latest_commit. -/

/-- utils.latest_commit, abstracted over the filesystem: the argument is
the listing of folder/.git/refs/heads — none when the folder does not
exist (the StopIteration branch), otherwise the list of (branch-file
name, branch-file contents) in directory order.  The source takes the
FIRST head file as the default branch and strips its contents for the
SHA, and returns a pair of empty strings only when there are no head
files at all. -/
def latest_commit (heads : Option (List (String × String))) : String × String :=
  match heads with
  | none => ("", "")
  | some [] => ("", "")
  | some ((branch, content) :: _) => (branch, pyTrim content)

/- clone_orgs.py: repolist. -/

/-- One element of the JSON array returned by the organization listing
endpoint, restricted to the fields the source reads.  The Python key
"private" is spelled priv here because private is a Lean keyword. -/
structure RepoRecord where
  name : String
  size : Nat
  priv : Bool
  fork : Bool
deriving DecidableEq, Repr

/-- Strict lexicographic comparison of strings by code point, the order
Python uses when comparing str values. -/
def strLtB : List Char → List Char → Bool
  | [], [] => false
  | [], _ :: _ => true
  | _ :: _, [] => false
  | a :: as, b :: bs =>
    decide (a.toNat < b.toNat) || (decide (a.toNat = b.toNat) && strLtB as bs)

/-- Ascending lexicographic order on (name, size) pairs, the order
Python's sorted applies to these tuples. -/
def tupleLe (a b : String × Nat) : Prop :=
  strLtB a.1.data b.1.data = true ∨ (a.1 = b.1 ∧ a.2 ≤ b.2)

instance : DecidableRel tupleLe := fun a b => by
  unfold tupleLe; infer_instance

/-- clone_orgs.repolist, its pure transform: keep records with
private == False and fork == False, project to (name.lower(), size),
and sort ascending.  Python's sorted is a stable sort, modelled by the
stable insertionSort (any two stable sorts agree). -/
def repolist (repodata : List RepoRecord) : List (String × Nat) :=
  ((repodata.filter (fun r => !r.priv && !r.fork)).map
    (fun r => (pyLower r.name, r.size))).insertionSort tupleLe

/- search.py: keyword scanner and tree aggregation. -/

/-- The hit_counts record built by search.search_file: the filename, one
count per configured word (in configuration order), and the *TOTAL*
entry. -/
structure Hits where
  filename : String
  counts : List (String × Nat)
  total : Nat
deriving DecidableEq, Repr

/-- search.search_file on the content of one file: lower-case the content
once, count each (lower-cased) word with str.count, and accumulate the
total alongside.  The file read is modelled by passing the content. -/
def search_file (words : List String) (filename content : String) : Hits :=
  let file_content := pyLower content
  words.foldl
    (fun hc w =>
      let matchCount := pyCount file_content (pyLower w)
      { hc with counts := hc.counts ++ [(w, matchCount)], total := hc.total + matchCount })
    { filename := filename, counts := [], total := 0 }

/-- The extension part of os.path.splitext: the suffix from the last dot
of the basename, where the leading dots of the basename never count as
an extension separator. -/
def lastDotSuffix : List Char → Option (List Char)
  | [] => none
  | c :: t =>
    match lastDotSuffix t with
    | some s => some s
    | none => if c = '.' then some (c :: t) else none

/-- Extension of a file name (with its dot), as os.path.splitext returns
it; "" when there is none. -/
def extOf (name : String) : String :=
  let cs := name.data
  let k := (cs.takeWhile (fun c => c = '.')).length
  match lastDotSuffix (cs.drop k) with
  | some suf => String.mk suf
  | none => ""

/-- The run configuration and external collaborators of search.py:
config.json's folder, words and filetypes settings, the path separator
os.path.join uses on the platform, and utils.latest_commit as an oracle
from a repo folder to its (branch, sha) pair (write_repo reads the real
filesystem through it). -/
structure Config where
  folder : String
  words : List String
  filetypes : List String
  sep : String
  lc : String → String × String

/-- The dict produced by search.empty_repo_totals: an empty folder, a
zero per-word count for every configured word, and a zero total. -/
structure RepoTotals where
  folder : String
  counts : List (String × Nat)
  total : Nat
deriving DecidableEq, Repr

/-- search.empty_repo_totals. -/
def empty_repo_totals (cfg : Config) : RepoTotals :=
  { folder := "", counts := cfg.words.map (fun w => (w, 0)), total := 0 }

/-- search.repo_folder: remove every occurrence of the configured folder
from the path, normalise backslashes, and test whether exactly two
forward slashes remain. -/
def repo_folder (cfg : Config) (folder_path : String) : Bool :=
  let sub_path := pyRemoveAll folder_path cfg.folder
  let sub_path := normSlash sub_path
  decide (sub_path.data.count '/' = 2)

/-- The vendored-code test of search.search_repos: the literal substring
"\vendor\" (with backslashes) occurring in the walk root. -/
def vendorSkip (root : String) : Bool := pyContains root "\\vendor\\"

/-- A row of matches.csv as write_matches produces it: the synthesized
URL, the per-word counts, and the total. -/
structure MatchRow where
  url : String
  counts : List (String × Nat)
  total : Nat
deriving DecidableEq, Repr

/-- search.write_matches applied to one hit record. -/
def mkMatchRow (h : Hits) : MatchRow :=
  { url := file_url h.filename, counts := h.counts, total := h.total }

/-- A row of repos.csv as write_repo produces it.  The folder the row was
written from is kept next to the synthesized URL so that rows can be
traced back to repository roots. -/
structure RepoRow where
  folder : String
  url : String
  counts : List (String × Nat)
  total : Nat
  branch : String
  sha : String
deriving DecidableEq, Repr

/-- search.write_repo: no row when the accumulated total is zero,
otherwise one row carrying the synthesized URL, the counts, the total,
and the branch/sha pair from utils.latest_commit. -/
def write_repo_rows (cfg : Config) (data : RepoTotals) : List RepoRow :=
  if data.total = 0 then []
  else
    [{ folder := data.folder, url := file_url data.folder, counts := data.counts,
       total := data.total, branch := (cfg.lc data.folder).1, sha := (cfg.lc data.folder).2 }]

/-- The streaming state of search.search_repos: the rows written so far to
matches.csv and repos.csv, and the open repo_totals accumulator. -/
structure ScanState where
  matchesCsv : List MatchRow
  repos : List RepoRow
  cur : RepoTotals
deriving Repr

/-- The repo-root boundary step of search.search_repos: write the previous
accumulator if its folder is non-empty (write_repo then drops it when
its total is zero), and open a fresh zero accumulator for the new
root. -/
def flushOpen (cfg : Config) (st : ScanState) (root : String) : ScanState :=
  let st1 :=
    if st.cur.folder ≠ "" then { st with repos := st.repos ++ write_repo_rows cfg st.cur }
    else st
  { st1 with cur := { empty_repo_totals cfg with folder := root } }

/-- Adding one file's hit counts into the open accumulator (the per-word
loop plus the *TOTAL* update of search.search_repos). -/
def addHits (cur : RepoTotals) (h : Hits) : RepoTotals :=
  { cur with
    counts := List.zipWith (fun a b => (a.1, a.2 + b.2)) cur.counts h.counts,
    total := cur.total + h.total }

/-- The per-file step of search.search_repos: when the file has at least
one hit, write a matches.csv row and add the hits into the open
accumulator; otherwise do nothing. -/
def scanStep (st : ScanState) (h : Hits) : ScanState :=
  if h.total > 0 then
    { st with matchesCsv := st.matchesCsv ++ [mkMatchRow h], cur := addHits st.cur h }
  else st

/-- The hit records of the files of one directory that pass the extension
allow-list, in directory order (extension.lower() in filetypes). -/
def fileHits (cfg : Config) (root : String) (files : List (String × String)) : List Hits :=
  (files.filter (fun f => cfg.filetypes.contains (pyLower (extOf f.1)))).map
    (fun f => search_file cfg.words (root ++ cfg.sep ++ f.1) f.2)

/- A directory tree as os.walk sees it: a name, the subdirectories, and
the files (name and content) directly inside. -/
mutual
inductive FSTree where
  | dir (name : String) (subs : FSList) (files : List (String × String))
inductive FSList where
  | nil
  | cons (t : FSTree) (ts : FSList)
end

/-- The name of a directory node. -/
def dirNameOf : FSTree → String
  | .dir n _ _ => n

/- search.search_repos, the walk itself, mirroring os.walk top-down with
in-place pruning of dirs.  At each root: a root containing "\vendor\" is
skipped entirely by continue (note that this also skips the pruning
statements, so descent below it is NOT pruned); otherwise the repo-root
boundary is handled, the allow-listed files are scanned, and the first
".git" and first ".github" entries are removed from dirs before
descending (the two Bool flags carry the pending one-shot removals,
mirroring dirs.remove which removes the first occurrence only). -/
mutual
def walkTree (cfg : Config) (st : ScanState) (root : String) : FSTree → ScanState
  | .dir _ subs files =>
    if vendorSkip root then walkSubs cfg st root false false subs
    else
      let st1 := if repo_folder cfg root then flushOpen cfg st root else st
      let st2 := (fileHits cfg root files).foldl scanStep st1
      walkSubs cfg st2 root true true subs

def walkSubs (cfg : Config) (st : ScanState) (root : String) (dropGit dropGithub : Bool) :
    FSList → ScanState
  | .nil => st
  | .cons t ts =>
    if dropGit ∧ dirNameOf t = ".git" then walkSubs cfg st root false dropGithub ts
    else if dropGithub ∧ dirNameOf t = ".github" then walkSubs cfg st root dropGit false ts
    else walkSubs cfg (walkTree cfg st (root ++ cfg.sep ++ dirNameOf t) t) root dropGit dropGithub ts
end

/-- search.search_repos: walk the configured folder from an empty state
with a fresh empty accumulator, then write the final repo's totals
(write_repo is called unconditionally at the end, so the final
accumulator is written whenever its total is non-zero, with no test of
its folder). -/
def search_repos (cfg : Config) (tree : FSTree) : ScanState :=
  let st0 : ScanState := { matchesCsv := [], repos := [], cur := empty_repo_totals cfg }
  let st := walkTree cfg st0 cfg.folder tree
  { st with repos := st.repos ++ write_repo_rows cfg st.cur }

/- The walk linearised into events, for reasoning about the aggregation
state machine. -/

/-- One observable event of the walk: opening a repository root, or
scanning one allow-listed file. -/
inductive Ev where
  | openRoot (root : String)
  | scan (h : Hits)
deriving DecidableEq, Repr

/-- The state transition of one event. -/
def evStep (cfg : Config) (st : ScanState) : Ev → ScanState
  | .openRoot r => flushOpen cfg st r
  | .scan h => scanStep st h

/-- Replaying a list of events from a state. -/
def applyEvents (cfg : Config) (st : ScanState) (evs : List Ev) : ScanState :=
  evs.foldl (evStep cfg) st

/- The events the walk of a subtree generates, in walk order. -/
mutual
def eventsT (cfg : Config) (root : String) : FSTree → List Ev
  | .dir _ subs files =>
    if vendorSkip root then eventsL cfg root false false subs
    else
      (if repo_folder cfg root then [Ev.openRoot root] else [])
        ++ (fileHits cfg root files).map Ev.scan
        ++ eventsL cfg root true true subs

def eventsL (cfg : Config) (root : String) (dropGit dropGithub : Bool) : FSList → List Ev
  | .nil => []
  | .cons t ts =>
    if dropGit ∧ dirNameOf t = ".git" then eventsL cfg root false dropGithub ts
    else if dropGithub ∧ dirNameOf t = ".github" then eventsL cfg root dropGit false ts
    else eventsT cfg (root ++ cfg.sep ++ dirNameOf t) t ++ eventsL cfg root dropGit dropGithub ts
end

/- Segment bookkeeping over event lists: which roots get opened, and the
total accumulated between one open and the next. -/

/-- The repository roots opened by an event list, in order. -/
def opensOf : List Ev → List String
  | [] => []
  | Ev.openRoot r :: rest => r :: opensOf rest
  | Ev.scan _ :: rest => opensOf rest

/-- Sum of the scanned totals before the next root is opened (or the list
ends). -/
def sumUntilOpen : List Ev → Nat
  | [] => 0
  | Ev.openRoot _ :: _ => 0
  | Ev.scan h :: rest => h.total + sumUntilOpen rest

/-- The total accumulated into the segment that the first open of root r
starts; 0 when r is never opened. -/
def segTotalAfter (r : String) : List Ev → Nat
  | [] => 0
  | Ev.openRoot q :: rest => if q = r then sumUntilOpen rest else segTotalAfter r rest
  | Ev.scan _ :: rest => segTotalAfter r rest

/-- The (folder, total) pairs of the repos.csv rows written at repo-root
boundaries, starting from an open accumulator c. -/
def midRows (c : String × Nat) : List Ev → List (String × Nat)
  | [] => []
  | Ev.openRoot q :: rest => (if c.1 ≠ "" ∧ c.2 ≠ 0 then [c] else []) ++ midRows (q, 0) rest
  | Ev.scan h :: rest => midRows (c.1, c.2 + h.total) rest

/-- The (folder, total) pair of the accumulator left open at the end. -/
def lastSeg (c : String × Nat) : List Ev → String × Nat
  | [] => c
  | Ev.openRoot q :: rest => lastSeg (q, 0) rest
  | Ev.scan h :: rest => lastSeg (c.1, c.2 + h.total) rest

/-- All (folder, total) pairs written to repos.csv by a full run: the
boundary rows plus the final write (which tests only the total). -/
def allRows (c : String × Nat) (evs : List Ev) : List (String × Nat) :=
  midRows c evs ++ (if (lastSeg c evs).2 ≠ 0 then [lastSeg c evs] else [])

/- Helper lemmas. -/

lemma uint32_eq_of_toBitVec_eq : ∀ (x y : UInt32), x.toBitVec = y.toBitVec → x = y
  | ⟨_⟩, ⟨_⟩, h => congrArg UInt32.mk h

lemma charToNat_inj (a b : Char) (h : a.toNat = b.toNat) : a = b :=
  Char.eq_of_val_eq (uint32_eq_of_toBitVec_eq _ _ (BitVec.eq_of_toNat_eq h))

lemma charOfNat_toNat_small (n : Nat) (h : n < 55296) : (Char.ofNat n).toNat = n := by
  unfold Char.ofNat
  rw [dif_pos (Or.inl h)]
  rfl

lemma charLower_toNat_of_upper (c : Char) (h : 65 ≤ c.toNat ∧ c.toNat ≤ 90) :
    (charLower c).toNat = c.toNat + 32 := by
  unfold charLower
  rw [if_pos h]
  exact charOfNat_toNat_small _ (by omega)

lemma charLower_charLower (c : Char) : charLower (charLower c) = charLower c := by
  by_cases h : 65 ≤ c.toNat ∧ c.toNat ≤ 90
  · have hv := charLower_toNat_of_upper c h
    conv_lhs => rw [charLower]
    rw [if_neg (by omega)]
  · unfold charLower
    rw [if_neg h, if_neg h]

lemma pyLower_pyLower (s : String) : pyLower (pyLower s) = pyLower s := by
  unfold pyLower
  simp only [List.map_map]
  congr 1
  exact List.map_congr_left (fun c _ => charLower_charLower c)

/- The per-word fold of search_file, characterised. -/

lemma search_file_counts (words : List String) (fn content : String) :
    (search_file words fn content).counts =
      words.map (fun w => (w, pyCount (pyLower content) (pyLower w))) ∧
    (search_file words fn content).total =
      (words.map (fun w => pyCount (pyLower content) (pyLower w))).sum := by
  unfold search_file
  suffices h : ∀ (ws : List String) (hc : Hits),
      (ws.foldl (fun hc w =>
        let matchCount := pyCount (pyLower content) (pyLower w)
        { hc with counts := hc.counts ++ [(w, matchCount)], total := hc.total + matchCount })
        hc).counts = hc.counts ++ ws.map (fun w => (w, pyCount (pyLower content) (pyLower w))) ∧
      (ws.foldl (fun hc w =>
        let matchCount := pyCount (pyLower content) (pyLower w)
        { hc with counts := hc.counts ++ [(w, matchCount)], total := hc.total + matchCount })
        hc).total = hc.total + (ws.map (fun w => pyCount (pyLower content) (pyLower w))).sum by
    have := h words { filename := fn, counts := [], total := 0 }
    simpa using this
  intro ws
  induction ws with
  | nil => intro hc; simp
  | cons w ws ih =>
    intro hc
    simp only [List.foldl_cons, List.map_cons, List.sum_cons]
    constructor
    · rw [(ih _).1]
      simp
    · rw [(ih _).2]
      simp only
      omega

/-- C9, counterexample: the claim says scanning empty content yields 0 for
every keyword and a total of 0, for every configured keyword list.  With
the empty string as a configured keyword, Python's "".count("") is 1, so
search_file on empty content reports total 1, not 0. -/
theorem c9_counterexample :
    (search_file [""] "f" "").total = 1 ∧ ¬ (search_file [""] "f" "").total = 0 := by
  decide

/-- C9 (amended): search_file lower-cases content and keywords and counts
non-overlapping occurrences per keyword; the total equals the sum of the
per-keyword counts; "FooFooFoo" scanned for "foo" yields 3; and scanning
empty content yields 0 for every NON-EMPTY keyword and hence total 0
when all keywords are non-empty (an empty keyword counts length + 1
occurrences, as Python's str.count does). -/
theorem c9_scanner_amended :
    (∀ (words : List String) (fn content : String),
      (search_file words fn content).total =
        ((search_file words fn content).counts.map (fun p => p.2)).sum)
  ∧ (search_file ["foo"] "f" "FooFooFoo").counts = [("foo", 3)]
  ∧ (search_file ["foo"] "f" "FooFooFoo").total = 3
  ∧ (∀ (words : List String) (fn : String), (∀ w ∈ words, w ≠ "") →
      (∀ p ∈ (search_file words fn "").counts, p.2 = 0) ∧
      (search_file words fn "").total = 0) := by
  refine ⟨?_, by decide, by decide, ?_⟩
  · intro words fn content
    obtain ⟨hc, ht⟩ := search_file_counts words fn content
    rw [hc, ht, List.map_map]
    rfl
  · intro words fn hw
    obtain ⟨hc, ht⟩ := search_file_counts words fn ""
    have hz : ∀ w ∈ words, pyCount (pyLower "") (pyLower w) = 0 := by
      intro w hmem
      have hne : (pyLower w).data ≠ [] := by
        have : w.data ≠ [] := by
          intro hd
          exact hw w hmem (by cases w; simp at hd; rw [hd])
        unfold pyLower
        simpa using this
      unfold pyCount
      rw [if_neg (by simpa using hne)]
      rfl
    constructor
    · intro p hp
      rw [hc] at hp
      obtain ⟨w, hmem, rfl⟩ := List.mem_map.mp hp
      exact hz w hmem
    · rw [ht]
      apply List.sum_eq_zero
      intro x hx
      obtain ⟨w, hmem, rfl⟩ := List.mem_map.mp hx
      exact hz w hmem

/-- C9 witness: the amended theorem applied to the concrete keyword list
["todo"], whose single keyword is non-empty. -/
theorem c9_witness :
    (∀ p ∈ (search_file ["todo"] "f" "").counts, p.2 = 0) ∧
    (search_file ["todo"] "f" "").total = 0 :=
  c9_scanner_amended.2.2.2 ["todo"] "f" (by decide)

/-- C4, counterexample: the claim says latest_commit returns a pair of
empty strings when there is more than one branch ref; the source instead
returns the first head file and its contents. -/
theorem c4_counterexample :
    latest_commit (some [("main", "abc"), ("dev", "ddd")]) = ("main", "abc") ∧
    ¬ latest_commit (some [("main", "abc"), ("dev", "ddd")]) = ("", "") := by
  decide

/-- C4 (amended): utils.latest_commit returns the first branch ref (in
directory-listing order) and its stripped contents whenever at least one
branch ref exists — including the ambiguous multi-ref case — and returns
a pair of empty strings exactly when the metadata folder is missing or
holds no head files. -/
theorem c4_latest_commit_amended :
    (∀ (branch content : String) (rest : List (String × String)),
      latest_commit (some ((branch, content) :: rest)) = (branch, pyTrim content))
  ∧ latest_commit none = ("", "")
  ∧ latest_commit (some []) = ("", "") :=
  ⟨fun _ _ _ => rfl, rfl, rfl⟩

/-- C2: utils.github_rest_api reports a missing (absent or empty) endpoint
and returns None instead of raising — but utils.github_allpages then
dereferences that None response (response.status_code), so the collector
aborts with an AttributeError instead of treating the call as "no data"
and continuing.  This theorem evaluates the code at the failing input. -/
theorem c2_missing_endpoint_crashes :
    (∀ (server : String → Resp), github_rest_api none server = none)
  ∧ (∀ (server : String → Resp), github_rest_api (some "") server = none)
  ∧ (∀ (server : String → Resp) (fuel : Nat),
      github_allpages server none (fuel + 1) =
        Except.error "AttributeError: NoneType has no attribute status_code")
  ∧ (∀ (server : String → Resp) (fuel : Nat),
      github_allpages server (some "") (fuel + 1) =
        Except.error "AttributeError: NoneType has no attribute status_code") := by
  refine ⟨fun _ => rfl, fun _ => rfl, fun _ _ => rfl, fun _ _ => rfl⟩

/- Characterisation of the last piece of a one-character split. -/

/-- The suffix of a char list after its last occurrence of c (the whole
list when c does not occur). -/
def afterLastChar (c : Char) : List Char → List Char
  | [] => []
  | x :: xs =>
    if c ∈ xs then afterLastChar c xs
    else if x = c then xs
    else x :: xs

lemma splitOnChar_ne_nil (c : Char) (l : List Char) : splitOnChar c l ≠ [] := by
  cases l with
  | nil => simp [splitOnChar]
  | cons x xs =>
    unfold splitOnChar
    cases h : splitOnChar c xs with
    | nil => simp
    | cons h t => by_cases hx : x = c <;> simp [hx]

lemma splitOnChar_of_not_mem (c : Char) (l : List Char) (h : c ∉ l) :
    splitOnChar c l = [l] := by
  induction l with
  | nil => rfl
  | cons x xs ih =>
    have hx : x ≠ c := fun he => h (by rw [he]; exact List.mem_cons_self _ _)
    have hxs : c ∉ xs := fun hm => h (List.mem_cons_of_mem _ hm)
    unfold splitOnChar
    rw [ih hxs]
    simp [hx]

lemma splitOnChar_length_ge_two (c : Char) (l : List Char) (h : c ∈ l) :
    2 ≤ (splitOnChar c l).length := by
  induction l with
  | nil => simp at h
  | cons x xs ih =>
    unfold splitOnChar
    cases hS : splitOnChar c xs with
    | nil => exact absurd hS (splitOnChar_ne_nil c xs)
    | cons h0 t =>
      by_cases hx : x = c
      · simp [hx]
      · have hmem : c ∈ xs := by
          rcases List.mem_cons.mp h with h1 | h1
          · exact absurd h1.symm hx
          · exact h1
        have h2 := ih hmem
        rw [hS] at h2
        simp only [List.length_cons] at h2
        simp only [if_neg hx, List.length_cons]
        omega

lemma getLastD_indep {α : Type} (l : List α) (hl : l ≠ []) (d d' : α) :
    l.getLastD d = l.getLastD d' := by
  cases l with
  | nil => exact absurd rfl hl
  | cons x xs => rw [List.getLastD_cons, List.getLastD_cons]

lemma splitOnChar_getLastD (c : Char) (l : List Char) :
    (splitOnChar c l).getLastD [] = afterLastChar c l := by
  induction l with
  | nil => rfl
  | cons x xs ih =>
    cases hS : splitOnChar c xs with
    | nil => exact absurd hS (splitOnChar_ne_nil c xs)
    | cons h0 t =>
      rw [hS] at ih
      by_cases hmem : c ∈ xs
      · by_cases hx : x = c
        · simp only [splitOnChar, hS, if_pos hx, afterLastChar, if_pos hmem,
            List.getLastD_cons]
          rw [List.getLastD_cons] at ih
          exact ih
        · have h2 := splitOnChar_length_ge_two c xs hmem
          rw [hS] at h2
          cases t with
          | nil => simp at h2
          | cons t0 ts =>
            simp only [splitOnChar, hS, if_neg hx, afterLastChar, if_pos hmem,
              List.getLastD_cons]
            rw [List.getLastD_cons, List.getLastD_cons] at ih
            exact ih
      · have hxs : splitOnChar c xs = [xs] := splitOnChar_of_not_mem c xs hmem
        rw [hxs] at hS
        obtain ⟨rfl, rfl⟩ : xs = h0 ∧ t = [] := by
          injection hS with hh ht
          exact ⟨hh, ht.symm⟩
        by_cases hx : x = c
        · simp only [splitOnChar, hxs, if_pos hx, afterLastChar, if_neg hmem,
            List.getLastD_cons]
          simp
        · simp only [splitOnChar, hxs, if_neg hx, afterLastChar, if_neg hmem,
            List.getLastD_cons]
          simp

lemma afterLastChar_of_not_mem (c : Char) (l : List Char) (h : c ∉ l) :
    afterLastChar c l = l := by
  induction l with
  | nil => rfl
  | cons x xs ih =>
    have hx : x ≠ c := fun he => h (by rw [he]; exact List.mem_cons_self _ _)
    have hxs : c ∉ xs := fun hm => h (List.mem_cons_of_mem _ hm)
    unfold afterLastChar
    rw [if_neg hxs, if_neg hx]

lemma afterLastChar_append (c : Char) (a b : List Char) (hb : c ∉ b) :
    afterLastChar c (a ++ b) = afterLastChar c a ++ b := by
  induction a with
  | nil => simp [afterLastChar_of_not_mem c b hb, afterLastChar]
  | cons x xs ih =>
    simp only [List.cons_append, afterLastChar, List.append_eq]
    by_cases hmem : c ∈ xs
    · rw [if_pos (by simp [hmem]), if_pos hmem]
      exact ih
    · have hnot : c ∉ xs ++ b := by
        simp only [List.mem_append]
        rintro (h | h)
        · exact hmem h
        · exact hb h
      rw [if_neg hnot, if_neg hmem]
      by_cases hx : x = c
      · rw [if_pos hx, if_pos hx]
      · rw [if_neg hx, if_neg hx]
        simp

lemma afterLastChar_append_self (c : Char) (a : List Char) :
    afterLastChar c (a ++ [c]) = [] := by
  induction a with
  | nil => simp [afterLastChar]
  | cons x xs ih =>
    simp only [List.cons_append, afterLastChar, List.append_eq]
    by_cases hmem : c ∈ xs ++ [c]
    · rw [if_pos hmem]
      exact ih
    · exact absurd (by simp) hmem

lemma getLastD_map {α β : Type} (f : α → β) (l : List α) (d : α) :
    (l.map f).getLastD (f d) = f (l.getLastD d) := by
  induction l generalizing d with
  | nil => rfl
  | cons x xs ih =>
    simp only [List.map_cons, List.getLastD_cons]
    exact ih x

lemma string_mk_data (s : String) : String.mk s.data = s := by
  cases s
  rfl

lemma splitS_getLastD (c : Char) (s : String) :
    (splitS c s).getLastD "" = String.mk (afterLastChar c s.data) := by
  unfold splitS
  rw [show ("" : String) = String.mk [] from rfl, getLastD_map, splitOnChar_getLastD]

lemma pageOfUrl_eq (url : String) :
    pageOfUrl url = pyTrim (String.mk (afterLastChar '=' (afterLastChar '?' url.data))) := by
  unfold pageOfUrl
  rw [splitS_getLastD, splitS_getLastD]

/-- C5, counterexample: for the Link entry
"<https://api.github.com/x?page=2&per_page=100>; rel=next" the parser
stores "100" (the value of the LAST query parameter) as the next page
number, while the value of the page query parameter of that URL is "2". -/
theorem c5_counterexample :
    lookupD
      (github_pagination "<https://api.github.com/x?page=2&per_page=100>; rel=\"next\"")
      "nextpage" "0" = "100"
  ∧ pageParam "https://api.github.com/x?page=2&per_page=100" = "2"
  ∧ ("100" : String) ≠ "2" := by
  exact ⟨by decide, by decide, by decide⟩

/-- C5 (amended): the page number the parser stores for a link entry is
the trimmed text after the last "=" of the part after the last "?" of
the entry's URL — the value of the URL's LAST query parameter, which
coincides with the page parameter exactly when page is the last
parameter of the query string.  The second conjunct records the stored
value on a URL whose page parameter is not last. -/
theorem c5_pagination_amended :
    (∀ (u v : String), '=' ∉ v.data → '?' ∉ v.data →
      pageOfUrl (u ++ "page=" ++ v) = pyTrim v)
  ∧ lookupD
      (github_pagination "<https://api.github.com/x?page=2&per_page=100>; rel=\"next\"")
      "nextpage" "0" = "100" := by
  constructor
  · intro u v hv1 hv2
    rw [pageOfUrl_eq]
    have hdata : (u ++ "page=" ++ v).data = u.data ++ ("page=".data ++ v.data) := by
      rw [String.data_append, String.data_append, List.append_assoc]
    rw [hdata]
    have hq : '?' ∉ "page=".data ++ v.data := by
      simp only [List.mem_append]
      rintro (h | h)
      · simp at h
      · exact hv2 h
    rw [afterLastChar_append '?' u.data _ hq]
    have hgrp : afterLastChar '?' u.data ++ ("page=".data ++ v.data) =
        ((afterLastChar '?' u.data ++ "page".data) ++ ['=']) ++ v.data := by
      simp only [List.append_assoc]
      rfl
    rw [hgrp, afterLastChar_append '=' _ _ hv1, afterLastChar_append_self]
    rw [List.nil_append, string_mk_data]
  · decide

/-- C5 witness: the amended theorem applied to a concrete URL split. -/
theorem c5_witness :
    pageOfUrl ("https://api.github.com/x?" ++ "page=" ++ "2") = pyTrim "2" :=
  c5_pagination_amended.1 "https://api.github.com/x?" "2" (by decide) (by decide)

lemma isChain_head_ne (server : String → Resp) (eps : List String)
    (bodies : List (List Nat)) (h : isChain server eps bodies) : eps.headD "" ≠ "" := by
  cases eps with
  | nil => simp [isChain] at h
  | cons e rest =>
    cases rest with
    | nil =>
      cases bodies with
      | nil => simp [isChain] at h
      | cons b bs =>
        cases bs with
        | nil => exact h.1
        | cons b2 bs2 => simp [isChain] at h
    | cons e2 rest2 =>
      cases bodies with
      | nil => simp [isChain] at h
      | cons b bs => exact h.1

lemma lookupD_initLinks_next : lookupD initLinks "nextURL" "" = "" := by decide

/-- C7: feeding the paginated collector a chain of status-200 pages in
which each page's Link header resolves to the next endpoint and the last
page omits the next link (no Link header, or a Link header with only
other relations such as prev/first/last) yields, with fuel equal to the
page count (so in particular the loop terminates), exactly the
concatenation of the pages' elements in page order, whose length is the
sum of the per-page element counts. -/
theorem c7_collector_roundtrip (server : String → Resp) (eps : List String)
    (bodies : List (List Nat)) (h : isChain server eps bodies) :
    github_allpages server (some (eps.headD "")) eps.length = Except.ok bodies.flatten
    ∧ bodies.flatten.length = (bodies.map List.length).sum := by
  refine ⟨?_, List.length_flatten bodies⟩
  induction eps generalizing bodies with
  | nil => simp [isChain] at h
  | cons e rest ih =>
    cases rest with
    | nil =>
      cases bodies with
      | nil => simp [isChain] at h
      | cons b bs =>
        cases bs with
        | cons b2 bs2 => simp [isChain] at h
        | nil =>
          obtain ⟨hne, hst, htx, hnx⟩ := h
          simp only [List.headD_cons, List.length_cons, List.length_nil]
          rw [github_allpages]
          simp only [github_rest_api, if_neg hne]
          simp [respOk, hst, htx, hnx]
    | cons e2 rest2 =>
      cases bodies with
      | nil => simp [isChain] at h
      | cons b bs =>
        obtain ⟨hne, ⟨hdr, hsrv, hnext⟩, hch⟩ := h
        have hne2 : e2 ≠ "" := by
          have := isChain_head_ne server (e2 :: rest2) bs hch
          simpa using this
        have ihr := ih bs hch
        simp only [List.headD_cons, List.length_cons] at ihr ⊢
        rw [github_allpages]
        simp only [github_rest_api, if_neg hne, hsrv]
        simp only [respOk, pagelinksOf, hnext, if_neg hne2]
        rw [ihr]
        simp

/-- A concrete two-page chain server for the C7 witness.  Its last page
carries a Link header in GitHub's usual last-page shape, holding prev,
first and last relations but no next. -/
def chainServerW : String → Resp := fun e =>
  if e = "a" then { status := 200, text := [1, 2], linkHdr := some "<b>; rel=\"next\"" }
  else if e = "b" then
    { status := 200, text := [3],
      linkHdr := some "<a>; rel=\"prev\", <a>; rel=\"first\", <b>; rel=\"last\"" }
  else { status := 404, text := [], linkHdr := none }

/-- C7 witness: the round-trip theorem applied to a concrete two-page
chain whose last page's Link header holds only prev/first/last. -/
theorem c7_witness :
    isChain chainServerW ["a", "b"] [[1, 2], [3]] ∧
    github_allpages chainServerW (some "a") 2 = Except.ok [1, 2, 3] := by
  have hc : isChain chainServerW ["a", "b"] [[1, 2], [3]] := by
    simp only [isChain]
    exact ⟨by decide, ⟨"<b>; rel=\"next\"", by decide, by decide⟩,
      by decide, by decide, by decide, by decide⟩
  refine ⟨hc, ?_⟩
  have h := (c7_collector_roundtrip chainServerW ["a", "b"] [[1, 2], [3]] hc).1
  simpa using h

/- Order lemmas for the repository catalog. -/

lemma string_data_inj (a b : String) (h : a.data = b.data) : a = b := by
  cases a
  cases b
  simp only at h
  rw [h]

lemma strLtB_trans (a b c : List Char) (h1 : strLtB a b = true) (h2 : strLtB b c = true) :
    strLtB a c = true := by
  induction a generalizing b c with
  | nil =>
    cases b with
    | nil => simp [strLtB] at h1
    | cons y ys =>
      cases c with
      | nil => simp [strLtB] at h2
      | cons z zs => simp [strLtB]
  | cons x xs ih =>
    cases b with
    | nil => simp [strLtB] at h1
    | cons y ys =>
      cases c with
      | nil => simp [strLtB] at h2
      | cons z zs =>
        simp only [strLtB, Bool.or_eq_true, Bool.and_eq_true, decide_eq_true_eq] at h1 h2 ⊢
        rcases h1 with h1 | ⟨he1, h1⟩ <;> rcases h2 with h2 | ⟨he2, h2⟩
        · exact Or.inl (by omega)
        · exact Or.inl (by omega)
        · exact Or.inl (by omega)
        · exact Or.inr ⟨by omega, ih _ _ h1 h2⟩

lemma strLtB_total (a b : List Char) (hne : a ≠ b) :
    strLtB a b = true ∨ strLtB b a = true := by
  induction a generalizing b with
  | nil =>
    cases b with
    | nil => exact absurd rfl hne
    | cons y ys => exact Or.inl (by simp [strLtB])
  | cons x xs ih =>
    cases b with
    | nil => exact Or.inr (by simp [strLtB])
    | cons y ys =>
      by_cases hxy : x.toNat = y.toNat
      · have hx : x = y := charToNat_inj _ _ hxy
        subst hx
        have hne' : xs ≠ ys := by
          intro h
          exact hne (by rw [h])
        rcases ih ys hne' with h | h
        · exact Or.inl (by simp [strLtB, h])
        · exact Or.inr (by simp [strLtB, h])
      · rcases Nat.lt_or_ge x.toNat y.toNat with h | h
        · refine Or.inl ?_
          simp only [strLtB, Bool.or_eq_true, decide_eq_true_eq]
          exact Or.inl h
        · refine Or.inr ?_
          simp only [strLtB, Bool.or_eq_true, decide_eq_true_eq]
          exact Or.inl (by omega)

instance : IsTrans (String × Nat) tupleLe := by
  constructor
  intro a b c h1 h2
  rcases h1 with h1 | ⟨he1, hs1⟩ <;> rcases h2 with h2 | ⟨he2, hs2⟩
  · exact Or.inl (strLtB_trans _ _ _ h1 h2)
  · exact Or.inl (by rw [← he2]; exact h1)
  · exact Or.inl (by rw [he1]; exact h2)
  · exact Or.inr ⟨he1.trans he2, hs1.trans hs2⟩

instance : IsTotal (String × Nat) tupleLe := by
  constructor
  intro a b
  by_cases he : a.1 = b.1
  · rcases Nat.le_total a.2 b.2 with h | h
    · exact Or.inl (Or.inr ⟨he, h⟩)
    · exact Or.inr (Or.inr ⟨he.symm, h⟩)
  · have hd : a.1.data ≠ b.1.data := fun h => he (string_data_inj _ _ h)
    rcases strLtB_total _ _ hd with h | h
    · exact Or.inl (Or.inl h)
    · exact Or.inr (Or.inl h)

/-- C8: the repository catalog's output contains no entry whose source
record was private or a fork (every output pair comes from a public
non-fork record, as its lower-cased name and size), every output name is
lower-case (lower-casing it again changes nothing), and the output is
sorted ascending by the (name, size) tuple, name first. -/
theorem c8_repolist (repodata : List RepoRecord) :
    (∀ p ∈ repolist repodata,
      ∃ r ∈ repodata, r.priv = false ∧ r.fork = false ∧ p = (pyLower r.name, r.size))
  ∧ (∀ p ∈ repolist repodata, pyLower p.1 = p.1)
  ∧ List.Pairwise tupleLe (repolist repodata) := by
  have hmem : ∀ p, p ∈ repolist repodata ↔
      p ∈ (repodata.filter (fun r => !r.priv && !r.fork)).map
        (fun r => (pyLower r.name, r.size)) := by
    intro p
    unfold repolist
    exact (List.perm_insertionSort tupleLe _).mem_iff
  refine ⟨?_, ?_, ?_⟩
  · intro p hp
    obtain ⟨r, hr, rfl⟩ := List.mem_map.mp ((hmem p).mp hp)
    obtain ⟨hrd, hflt⟩ := List.mem_filter.mp hr
    refine ⟨r, hrd, ?_, ?_, rfl⟩
    · simp only [Bool.and_eq_true, Bool.not_eq_true'] at hflt
      exact hflt.1
    · simp only [Bool.and_eq_true, Bool.not_eq_true'] at hflt
      exact hflt.2
  · intro p hp
    obtain ⟨r, hr, rfl⟩ := List.mem_map.mp ((hmem p).mp hp)
    exact pyLower_pyLower r.name
  · exact List.sorted_insertionSort tupleLe _

/-- Concrete organization listing for the C8 witness. -/
def repodataW : List RepoRecord :=
  [{ name := "Beta", size := 3, priv := false, fork := false },
   { name := "alpha", size := 9, priv := false, fork := true },
   { name := "Alpha", size := 7, priv := false, fork := false }]

/-- C8 witness: the catalog theorem applied to a concrete listing and a
concrete member of its output. -/
theorem c8_witness :
    (∃ r ∈ repodataW, r.priv = false ∧ r.fork = false ∧
      (("alpha", 7) : String × Nat) = (pyLower r.name, r.size))
  ∧ pyLower (("alpha", 7) : String × Nat).1 = "alpha"
  ∧ List.Pairwise tupleLe (repolist repodataW) := by
  obtain ⟨h1, h2, h3⟩ := c8_repolist repodataW
  have hm : (("alpha", 7) : String × Nat) ∈ repolist repodataW := by decide
  exact ⟨h1 _ hm, h2 _ hm, h3⟩

/- Suffix and containment helpers for the URL synthesis proof. -/

lemma isPrefixOf_iff_ex (a b : List Char) : a.isPrefixOf b = true ↔ ∃ t, a ++ t = b := by
  induction a generalizing b with
  | nil => simp
  | cons x xs ih =>
    cases b with
    | nil => simp
    | cons y ys =>
      rw [List.isPrefixOf_cons₂]
      constructor
      · intro h
        obtain ⟨hxy, hrest⟩ := Bool.and_eq_true_iff.mp h
        obtain ⟨t, ht⟩ := (ih ys).mp hrest
        exact ⟨t, by rw [List.cons_append, ht, show x = y from by simpa using hxy]⟩
      · rintro ⟨t, ht⟩
        rw [List.cons_append] at ht
        obtain ⟨hxy, hys⟩ := List.cons.inj ht
        apply Bool.and_eq_true_iff.mpr
        exact ⟨by simp [hxy], (ih ys).mpr ⟨t, hys⟩⟩

lemma isSuffixOf_iff_ex (a b : List Char) : a.isSuffixOf b = true ↔ ∃ t, t ++ a = b := by
  unfold List.isSuffixOf
  rw [isPrefixOf_iff_ex]
  constructor
  · rintro ⟨t, ht⟩
    refine ⟨t.reverse, ?_⟩
    have := congrArg List.reverse ht
    simpa using this
  · rintro ⟨t, ht⟩
    refine ⟨t.reverse, ?_⟩
    rw [← ht]
    simp

lemma joinOn_splitOnChar (c : Char) (l : List Char) : joinOn c (splitOnChar c l) = l := by
  induction l with
  | nil => rfl
  | cons x xs ih =>
    cases hS : splitOnChar c xs with
    | nil => exact absurd hS (splitOnChar_ne_nil c xs)
    | cons h t =>
      rw [hS] at ih
      by_cases hx : x = c
      · simp only [splitOnChar, hS, if_pos hx]
        subst hx
        cases t with
        | nil => simpa [joinOn] using ih
        | cons t0 ts => simpa [joinOn] using ih
      · simp only [splitOnChar, hS, if_neg hx]
        cases t with
        | nil =>
          simp only [joinOn] at ih ⊢
          rw [ih]
        | cons t0 ts =>
          simp only [joinOn] at ih ⊢
          rw [List.cons_append, ih]

lemma joinOn_drop_ex (c : Char) (parts : List (List Char)) (n : Nat) :
    ∃ t, t ++ joinOn c (parts.drop n) = joinOn c parts := by
  induction n generalizing parts with
  | zero => exact ⟨[], rfl⟩
  | succ n ih =>
    cases parts with
    | nil => exact ⟨[], rfl⟩
    | cons p ps =>
      obtain ⟨t, ht⟩ := ih ps
      cases ps with
      | nil =>
        cases n <;> exact ⟨joinOn c [p], by simp [joinOn]⟩
      | cons q qs =>
        refine ⟨p ++ c :: t, ?_⟩
        simp only [List.drop_succ_cons]
        rw [List.append_assoc, List.cons_append]
        rw [show (q :: qs).drop n = (p :: q :: qs).drop (n + 1) from rfl] at ht
        simp only [List.drop_succ_cons] at ht
        rw [ht]
        simp [joinOn]

lemma pyContainsL_nil_sub (l : List Char) : pyContainsL [] l = true := by
  cases l <;> simp [pyContainsL]

lemma pyContainsL_of_ex (sub l : List Char) (h : ∃ s t, s ++ sub ++ t = l) :
    pyContainsL sub l = true := by
  obtain ⟨s, t, ht⟩ := h
  induction s generalizing l with
  | nil =>
    subst ht
    cases sub with
    | nil => exact pyContainsL_nil_sub _
    | cons u us =>
      simp only [List.nil_append, List.cons_append, pyContainsL, Bool.or_eq_true]
      exact Or.inl ((isPrefixOf_iff_ex _ _).mpr ⟨t, rfl⟩)
  | cons x xs ih =>
    subst ht
    cases sub with
    | nil => exact pyContainsL_nil_sub _
    | cons u us =>
      simp only [List.cons_append, pyContainsL, Bool.or_eq_true]
      exact Or.inr (ih _ rfl)

lemma append_eq_append_ex (t x y z : List Char) (h : t ++ x = y ++ z)
    (hlen : x.length ≤ z.length) : ∃ t2, t2 ++ x = z := by
  have hty : y.length ≤ t.length := by
    have := congrArg List.length h
    simp only [List.length_append] at this
    omega
  refine ⟨t.drop y.length, ?_⟩
  have hsplit : t = y ++ t.drop y.length := by
    have h1 : (t ++ x).take y.length = y := by
      rw [h, List.take_append_of_le_length (le_refl _), List.take_length]
    have h2 : t.take y.length = y := by
      rw [← @List.take_append_of_le_length _ t x y.length hty]
      exact h1
    conv_lhs => rw [← List.take_append_drop y.length t]
    rw [h2]
  have := h
  rw [hsplit, List.append_assoc] at this
  exact (List.append_cancel_left this)

lemma normSlash_data (s : String) : (normSlash s).data = s.data.map slashify := rfl

lemma normSlash_split (root rel : String) :
    (normSlash (root ++ "\\" ++ rel)).data
      = (normSlash root).data ++ '/' :: (normSlash rel).data := by
  rw [normSlash_data, normSlash_data, normSlash_data]
  rw [String.data_append, String.data_append, List.map_append, List.map_append]
  have hbs : "\\".data.map slashify = ['/'] := by decide
  rw [hbs, List.append_assoc]
  rfl

lemma blob_master_take_drop :
    ∀ k, k < 14 → 1 ≤ k →
      ("/blob/master/".data.take (13 - k) = "/blob/master/".data.drop k → k = 12 ∨ k = 13) := by
  decide

lemma no_spurious_blob_suffix (nrel : List Char)
    (hbm : pyContainsL "blob/master".data nrel = false)
    (hrest : joinOn '/' ((splitOnChar '/' nrel).drop 2) ≠ []) :
    ("/blob/master/".data).isSuffixOf
      ("https://github.com/".data ++ joinOn '/' ((splitOnChar '/' nrel).take 2)
        ++ "/blob/master/".data ++ joinOn '/' ((splitOnChar '/' nrel).drop 2)) = false := by
  cases hs : ("/blob/master/".data).isSuffixOf
      ("https://github.com/".data ++ joinOn '/' ((splitOnChar '/' nrel).take 2)
        ++ "/blob/master/".data ++ joinOn '/' ((splitOnChar '/' nrel).drop 2)) with
  | false => rfl
  | true =>
    exfalso
    obtain ⟨t, ht⟩ := (isSuffixOf_iff_ex _ _).mp hs
    have hBMlen : ("/blob/master/".data).length = 13 := by decide
    obtain ⟨u, hu⟩ := joinOn_drop_ex '/' (splitOnChar '/' nrel) 2
    rw [joinOn_splitOnChar] at hu
    set orgrepo := joinOn '/' ((splitOnChar '/' nrel).take 2) with horgrepo
    set rest := joinOn '/' ((splitOnChar '/' nrel).drop 2) with hrestdef
    have hcontra : pyContainsL "blob/master".data nrel = true → False := by
      intro hcon
      rw [hcon] at hbm
      cases hbm
    rcases Nat.le_total 13 rest.length with hge | hle
    · have hU : "https://github.com/".data ++ orgrepo ++ "/blob/master/".data ++ rest =
          (("https://github.com/".data ++ orgrepo) ++ "/blob/master/".data) ++ rest := by
        simp [List.append_assoc]
      rw [hU] at ht
      obtain ⟨t2, ht2⟩ := append_eq_append_ex t _ _ rest ht (by rw [hBMlen]; exact hge)
      apply hcontra
      apply pyContainsL_of_ex
      refine ⟨u ++ t2 ++ ['/'], ['/'], ?_⟩
      have hdecomp : "/blob/master/".data = ['/'] ++ "blob/master".data ++ ['/'] := by decide
      rw [← hu, ← ht2, hdecomp]
      simp [List.append_assoc]
    · have hU : "https://github.com/".data ++ orgrepo ++ "/blob/master/".data ++ rest =
          ("https://github.com/".data ++ orgrepo) ++ ("/blob/master/".data ++ rest) := by
        simp [List.append_assoc]
      rw [hU] at ht
      obtain ⟨t2, ht2⟩ :=
        append_eq_append_ex t _ _ ("/blob/master/".data ++ rest) ht (by simp)
      have hk : t2.length = rest.length := by
        have hlen2 := congrArg List.length ht2
        simp only [List.length_append] at hlen2
        omega
      have hkpos : 1 ≤ rest.length := by
        have := List.length_pos.mpr hrest
        omega
      have hdropped : "/blob/master/".data =
          ("/blob/master/".data).drop rest.length ++ rest := by
        have h1 : (t2 ++ "/blob/master/".data).drop t2.length = "/blob/master/".data :=
          List.drop_left _ _
        rw [ht2, List.drop_append_of_le_length (by rw [hBMlen]; omega), hk] at h1
        exact h1.symm
      have hBM2 : ("/blob/master/".data).take (13 - rest.length)
            ++ ("/blob/master/".data).drop (13 - rest.length)
          = ("/blob/master/".data).drop rest.length ++ rest := by
        rw [List.take_append_drop]
        exact hdropped
      have hlen1 : (("/blob/master/".data).take (13 - rest.length)).length
          = (("/blob/master/".data).drop rest.length).length := by
        rw [List.length_take, List.length_drop, hBMlen]
        omega
      obtain ⟨hTD, hR⟩ := List.append_inj hBM2 hlen1
      rcases blob_master_take_drop rest.length (by omega) hkpos hTD with h12 | h13
      · rw [h12] at hR
        norm_num at hR
        apply hcontra
        apply pyContainsL_of_ex
        refine ⟨u, ['/'], ?_⟩
        rw [← hu, ← hR, List.append_assoc]
        congr 1
      · rw [h13] at hR
        norm_num at hR
        apply hcontra
        apply pyContainsL_of_ex
        refine ⟨u ++ ['/'], ['/'], ?_⟩
        rw [← hu, ← hR, List.append_assoc, List.append_assoc]
        congr 1

/-- C1 (amended): utils.file_url drops exactly the first 15 characters of
the backslash-normalised path, so the claimed cache-root stripping holds
precisely when the normalised cache root is 14 characters long (15 with
the separator); moreover the collapse to the bare repository URL is
implemented as a suffix test on "/blob/master/", which coincides with
"path below the repository root is empty" for paths that do not contain
"blob/master".  Under those two conditions the source agrees with the
spec's description. -/
theorem c1_file_url_amended (root rel : String)
    (hlen : (normSlash root).data.length = 14)
    (hbm : pyContainsL "blob/master".data (normSlash rel).data = false) :
    file_url (root ++ "\\" ++ rel) = fileUrlSpec root (root ++ "\\" ++ rel) := by
  have hdata := normSlash_split root rel
  have hd15 : ((normSlash (root ++ "\\" ++ rel)).data).drop 15 = (normSlash rel).data := by
    rw [hdata]
    have h1 : (normSlash root).data ++ '/' :: (normSlash rel).data
        = ((normSlash root).data ++ ['/']) ++ (normSlash rel).data := by simp
    rw [h1]
    have h2 : ((normSlash root).data ++ ['/']).length = 15 := by simp [hlen]
    rw [← h2, List.drop_left]
  have hdrel : ((normSlash (root ++ "\\" ++ rel)).data).drop ((normSlash root).data.length + 1)
      = (normSlash rel).data := by
    rw [hdata]
    have h1 : (normSlash root).data ++ '/' :: (normSlash rel).data
        = ((normSlash root).data ++ ['/']) ++ (normSlash rel).data := by simp
    rw [h1]
    have h2 : ((normSlash root).data ++ ['/']).length = (normSlash root).data.length + 1 := by
      simp
    rw [← h2, List.drop_left]
  have hpref : (((normSlash root).data ++ ['/']).isPrefixOf
      (normSlash (root ++ "\\" ++ rel)).data) = true := by
    rw [hdata]
    exact (isPrefixOf_iff_ex _ _).mpr ⟨(normSlash rel).data, by simp⟩
  simp only [file_url, fileUrlSpec]
  rw [hd15, hpref, if_pos rfl, hdrel]
  by_cases hrest : joinOn '/' ((splitOnChar '/' (normSlash rel).data).drop 2) = []
  · rw [hrest]
    have hsuf : ("/blob/master/".data).isSuffixOf
        ("https://github.com/".data
          ++ joinOn '/' ((splitOnChar '/' (normSlash rel).data).take 2)
          ++ "/blob/master/".data ++ ([] : List Char)) = true := by
      refine (isSuffixOf_iff_ex _ _).mpr
        ⟨"https://github.com/".data
          ++ joinOn '/' ((splitOnChar '/' (normSlash rel).data).take 2), by simp⟩
    rw [hsuf, if_pos rfl]
    simp only [List.isEmpty_nil, if_pos]
    congr 1
    have hshape : "https://github.com/".data
        ++ joinOn '/' ((splitOnChar '/' (normSlash rel).data).take 2)
        ++ "/blob/master/".data ++ ([] : List Char)
      = ("https://github.com/".data
          ++ joinOn '/' ((splitOnChar '/' (normSlash rel).data).take 2))
        ++ "/blob/master/".data := by
      simp
    rw [hshape]
    have hlen2 : (("https://github.com/".data
        ++ joinOn '/' ((splitOnChar '/' (normSlash rel).data).take 2))
        ++ "/blob/master/".data).length
      = ("https://github.com/".data
        ++ joinOn '/' ((splitOnChar '/' (normSlash rel).data).take 2)).length + 13 := by
      simp
    rw [hlen2, Nat.add_sub_cancel, List.take_left]
  · have hsufF := no_spurious_blob_suffix (normSlash rel).data hbm hrest
    rw [hsufF]
    have hempty : (joinOn '/' ((splitOnChar '/' (normSlash rel).data).drop 2)).isEmpty
        = false := by
      cases hj : joinOn '/' ((splitOnChar '/' (normSlash rel).data).drop 2) with
      | nil => exact absurd hj hrest
      | cons a l => rfl
    rw [hempty]
    simp

/-- C1, counterexample: for the configured cache root "C:\repos" (whose
normalised form has 8 characters, not 14) the synthesized URL differs
from the spec's strip-the-cache-root mapping: the source produces
https://github.com/po/a.py where the spec's rule produces
https://github.com/org/repo/blob/master/a.py, because the slice [15:] is
hard-coded and independent of the configured cache root. -/
theorem c1_counterexample :
    file_url "C:\\repos\\org\\repo\\a.py" ≠ fileUrlSpec "C:\\repos" "C:\\repos\\org\\repo\\a.py"
  ∧ fileUrlSpec "C:\\repos" "C:\\repos\\org\\repo\\a.py"
      = "https://github.com/org/repo/blob/master/a.py"
  ∧ file_url "C:\\repos\\org\\repo\\a.py" = "https://github.com/po/a.py" := by
  refine ⟨by decide, by decide, by decide⟩

/-- C1 witness: for a cache root whose normalised form is exactly 14
characters long, and a path below it free of "blob/master", the amended
theorem applies and the two URL computations agree. -/
theorem c1_witness :
    (normSlash "C:\\github-repo").data.length = 14
  ∧ pyContainsL "blob/master".data (normSlash "org\\repo\\a.py").data = false
  ∧ file_url ("C:\\github-repo" ++ "\\" ++ "org\\repo\\a.py")
      = fileUrlSpec "C:\\github-repo" ("C:\\github-repo" ++ "\\" ++ "org\\repo\\a.py") :=
  ⟨by decide, by decide,
    c1_file_url_amended "C:\\github-repo" "org\\repo\\a.py" (by decide) (by decide)⟩

/- The walk computes exactly the replay of its event list. -/

lemma applyEvents_append (cfg : Config) (st : ScanState) (a b : List Ev) :
    applyEvents cfg st (a ++ b) = applyEvents cfg (applyEvents cfg st a) b :=
  List.foldl_append _ _ _ _

mutual
theorem walkTree_eq_events (cfg : Config) (st : ScanState) (root : String) (t : FSTree) :
    walkTree cfg st root t = applyEvents cfg st (eventsT cfg root t) := by
  cases t with
  | dir nm subs files =>
    by_cases hv : vendorSkip root = true
    · simp only [walkTree, eventsT, if_pos hv]
      exact walkSubs_eq_events cfg st root false false subs
    · simp only [walkTree, eventsT, if_neg hv]
      rw [applyEvents_append, applyEvents_append]
      have h1 : applyEvents cfg st (if repo_folder cfg root then [Ev.openRoot root] else [])
          = (if repo_folder cfg root then flushOpen cfg st root else st) := by
        by_cases hr : repo_folder cfg root = true
        · simp [hr, applyEvents, evStep]
        · simp only [Bool.not_eq_true] at hr
          simp [hr, applyEvents]
      rw [h1]
      have h2 : ∀ (st1 : ScanState),
          applyEvents cfg st1 ((fileHits cfg root files).map Ev.scan)
            = (fileHits cfg root files).foldl scanStep st1 := by
        intro st1
        unfold applyEvents
        rw [List.foldl_map]
        simp only [evStep]
      rw [h2]
      exact walkSubs_eq_events cfg _ root true true subs

theorem walkSubs_eq_events (cfg : Config) (st : ScanState) (root : String)
    (dropGit dropGithub : Bool) (ts : FSList) :
    walkSubs cfg st root dropGit dropGithub ts
      = applyEvents cfg st (eventsL cfg root dropGit dropGithub ts) := by
  cases ts with
  | nil => rfl
  | cons t ts =>
    by_cases h1 : dropGit ∧ dirNameOf t = ".git"
    · simp only [walkSubs, eventsL, if_pos h1]
      exact walkSubs_eq_events cfg st root false dropGithub ts
    · by_cases h2 : dropGithub ∧ dirNameOf t = ".github"
      · simp only [walkSubs, eventsL, if_neg h1, if_pos h2]
        exact walkSubs_eq_events cfg st root dropGit false ts
      · simp only [walkSubs, eventsL, if_neg h1, if_neg h2]
        rw [applyEvents_append, ← walkTree_eq_events]
        exact walkSubs_eq_events cfg _ root dropGit dropGithub ts
end

lemma search_repos_eq_events (cfg : Config) (tree : FSTree) :
    search_repos cfg tree =
      (let st := applyEvents cfg
        { matchesCsv := [], repos := [], cur := empty_repo_totals cfg }
        (eventsT cfg cfg.folder tree)
       { st with repos := st.repos ++ write_repo_rows cfg st.cur }) := by
  simp only [search_repos, walkTree_eq_events]

/- Projection of the run onto (folder, total) pairs. -/

lemma flushOpen_eq (cfg : Config) (st : ScanState) (root : String) :
    flushOpen cfg st root =
      { matchesCsv := st.matchesCsv,
        repos := st.repos ++
          (if st.cur.folder ≠ "" ∧ st.cur.total ≠ 0 then write_repo_rows cfg st.cur else []),
        cur := { folder := root, counts := (empty_repo_totals cfg).counts,
                 total := (empty_repo_totals cfg).total } } := by
  unfold flushOpen write_repo_rows
  by_cases hf : st.cur.folder ≠ ""
  · by_cases ht : st.cur.total = 0
    · simp [hf, ht]
    · simp [hf, ht]
  · simp only [Bool.not_eq_true] at hf
    simp [hf]

lemma write_repo_rows_proj (cfg : Config) (d : RepoTotals) :
    (write_repo_rows cfg d).map (fun row => (row.folder, row.total))
      = if d.total ≠ 0 then [(d.folder, d.total)] else [] := by
  unfold write_repo_rows
  by_cases ht : d.total = 0
  · simp [ht]
  · simp [ht]

lemma applyEvents_proj (cfg : Config) (evs : List Ev) : ∀ (st : ScanState),
    ((applyEvents cfg st evs).repos.map (fun row => (row.folder, row.total))
      = st.repos.map (fun row => (row.folder, row.total))
          ++ midRows (st.cur.folder, st.cur.total) evs)
    ∧ ((applyEvents cfg st evs).cur.folder, (applyEvents cfg st evs).cur.total)
      = lastSeg (st.cur.folder, st.cur.total) evs := by
  induction evs with
  | nil => intro st; simp [applyEvents, midRows, lastSeg]
  | cons e evs ih =>
    intro st
    have hstep : applyEvents cfg st (e :: evs) = applyEvents cfg (evStep cfg st e) evs := rfl
    cases e with
    | openRoot q =>
      have hev : evStep cfg st (Ev.openRoot q) = flushOpen cfg st q := rfl
      rw [hstep, hev, flushOpen_eq]
      obtain ⟨ihr, ihc⟩ := ih
        { matchesCsv := st.matchesCsv,
          repos := st.repos ++
            (if st.cur.folder ≠ "" ∧ st.cur.total ≠ 0 then write_repo_rows cfg st.cur else []),
          cur := { folder := q, counts := (empty_repo_totals cfg).counts,
                   total := (empty_repo_totals cfg).total } }
      constructor
      · rw [ihr]
        simp only [List.map_append, empty_repo_totals, midRows]
        rw [List.append_assoc]
        congr 1
        congr 1
        by_cases hc : st.cur.folder ≠ "" ∧ st.cur.total ≠ 0
        · rw [if_pos hc, if_pos hc, write_repo_rows_proj, if_pos hc.2]
        · rw [if_neg hc, if_neg hc]
          rfl
      · rw [ihc]
        simp [empty_repo_totals, lastSeg]
    | scan h =>
      have hev : evStep cfg st (Ev.scan h) = scanStep st h := rfl
      rw [hstep, hev]
      unfold scanStep
      by_cases hpos : h.total > 0
      · rw [if_pos hpos]
        obtain ⟨ihr, ihc⟩ := ih
          { matchesCsv := st.matchesCsv ++ [mkMatchRow h], repos := st.repos,
            cur := addHits st.cur h }
        constructor
        · rw [ihr]
          simp [addHits, midRows]
        · rw [ihc]
          simp [addHits, lastSeg]
      · rw [if_neg hpos]
        obtain ⟨ihr, ihc⟩ := ih st
        have hz : h.total = 0 := by omega
        constructor
        · rw [ihr]
          simp [midRows, hz]
        · rw [ihc]
          simp [lastSeg, hz]

lemma search_repos_proj (cfg : Config) (tree : FSTree) :
    (search_repos cfg tree).repos.map (fun row => (row.folder, row.total))
      = allRows ("", 0) (eventsT cfg cfg.folder tree) := by
  rw [search_repos_eq_events]
  simp only
  rw [List.map_append, write_repo_rows_proj]
  obtain ⟨hr, hc⟩ := applyEvents_proj cfg (eventsT cfg cfg.folder tree)
    { matchesCsv := [], repos := [], cur := empty_repo_totals cfg }
  rw [hr]
  have hbase1 : ({ matchesCsv := [], repos := [], cur := empty_repo_totals cfg } : ScanState).cur.folder = "" := rfl
  have hbase2 : ({ matchesCsv := [], repos := [], cur := empty_repo_totals cfg } : ScanState).cur.total = 0 := rfl
  have hbase3 : ({ matchesCsv := [], repos := [], cur := empty_repo_totals cfg } : ScanState).repos = [] := rfl
  rw [hbase1, hbase2] at hc
  rw [hbase1, hbase2, hbase3]
  rw [Prod.mk.injEq] at hc
  obtain ⟨h1, h2⟩ := hc
  rw [h1, h2]
  unfold allRows
  simp only [List.map_nil, List.nil_append, Prod.mk.eta]

/- Row counting over the segment bookkeeping. -/

lemma allRows_nil (c : String × Nat) : allRows c [] = if c.2 ≠ 0 then [c] else [] := by
  unfold allRows midRows lastSeg
  simp

lemma midRows_open (c : String × Nat) (q : String) (evs : List Ev) :
    midRows c (Ev.openRoot q :: evs)
      = (if c.1 ≠ "" ∧ c.2 ≠ 0 then [c] else []) ++ midRows (q, 0) evs := rfl

lemma lastSeg_open (c : String × Nat) (q : String) (evs : List Ev) :
    lastSeg c (Ev.openRoot q :: evs) = lastSeg (q, 0) evs := rfl

lemma allRows_open (c : String × Nat) (q : String) (evs : List Ev) :
    allRows c (Ev.openRoot q :: evs)
      = (if c.1 ≠ "" ∧ c.2 ≠ 0 then [c] else []) ++ allRows (q, 0) evs := by
  unfold allRows
  rw [midRows_open, lastSeg_open, List.append_assoc]

lemma allRows_scan (c : String × Nat) (h : Hits) (evs : List Ev) :
    allRows c (Ev.scan h :: evs) = allRows (c.1, c.2 + h.total) evs := rfl

lemma allRows_nonzero (evs : List Ev) : ∀ (c : String × Nat) (p : String × Nat),
    p ∈ allRows c evs → p.2 ≠ 0 := by
  induction evs with
  | nil =>
    intro c p hp
    rw [allRows_nil] at hp
    by_cases hc : c.2 ≠ 0
    · rw [if_pos hc] at hp
      simp at hp
      rw [hp]
      exact hc
    · rw [if_neg hc] at hp
      simp at hp
  | cons e evs ih =>
    intro c p hp
    cases e with
    | openRoot q =>
      rw [allRows_open] at hp
      rcases List.mem_append.mp hp with hp | hp
      · by_cases hc : c.1 ≠ "" ∧ c.2 ≠ 0
        · rw [if_pos hc] at hp
          simp at hp
          rw [hp]
          exact hc.2
        · rw [if_neg hc] at hp
          simp at hp
      · exact ih _ _ hp
    | scan h =>
      rw [allRows_scan] at hp
      exact ih _ _ hp

lemma allRows_filter_none (evs : List Ev) (r : String) : ∀ (c : String × Nat),
    r ∉ opensOf evs → c.1 ≠ r →
    (allRows c evs).filter (fun p => p.1 = r) = [] := by
  induction evs with
  | nil =>
    intro c _ hc
    rw [allRows_nil]
    by_cases ht : c.2 ≠ 0
    · rw [if_pos ht]
      simp [hc]
    · rw [if_neg ht]
      rfl
  | cons e evs ih =>
    intro c hr hc
    cases e with
    | openRoot q =>
      have hq : q ≠ r := by
        intro hqr
        exact hr (by rw [← hqr]; simp [opensOf])
      have hr2 : r ∉ opensOf evs := fun hm => hr (by simp [opensOf, hm])
      rw [allRows_open, List.filter_append, ih (q, 0) hr2 hq]
      by_cases hcc : c.1 ≠ "" ∧ c.2 ≠ 0
      · rw [if_pos hcc]
        simp [hc]
      · rw [if_neg hcc]
        rfl
    | scan h =>
      have hr2 : r ∉ opensOf evs := fun hm => hr (by simp [opensOf, hm])
      rw [allRows_scan]
      exact ih _ hr2 hc

lemma allRows_filter_seg (evs : List Ev) (r : String) (hrne : r ≠ "") :
    ∀ (t0 : Nat), r ∉ opensOf evs →
    ((allRows (r, t0) evs).filter (fun p => p.1 = r)).length
      = if t0 + sumUntilOpen evs ≠ 0 then 1 else 0 := by
  induction evs with
  | nil =>
    intro t0 _
    rw [allRows_nil]
    simp only [sumUntilOpen, Nat.add_zero]
    by_cases ht : t0 ≠ 0
    · rw [if_pos ht, if_pos ht]
      simp
    · rw [if_neg ht, if_neg ht]
      rfl
  | cons e evs ih =>
    intro t0 hr
    cases e with
    | openRoot q =>
      have hq : q ≠ r := by
        intro hqr
        exact hr (by rw [← hqr]; simp [opensOf])
      have hr2 : r ∉ opensOf evs := fun hm => hr (by simp [opensOf, hm])
      rw [allRows_open, List.filter_append,
        allRows_filter_none evs r (q, 0) hr2 hq]
      simp only [sumUntilOpen, List.append_nil, Nat.add_zero]
      by_cases ht : t0 ≠ 0
      · rw [if_pos (show r ≠ "" ∧ t0 ≠ 0 from ⟨hrne, ht⟩), if_pos ht]
        simp
      · rw [if_neg (show ¬ (r ≠ "" ∧ t0 ≠ 0) from fun hcc => ht hcc.2), if_neg ht]
        rfl
    | scan h =>
      have hr2 : r ∉ opensOf evs := fun hm => hr (by simp [opensOf, hm])
      rw [allRows_scan]
      have := ih (t0 + h.total) hr2
      simp only at this
      rw [this]
      simp only [sumUntilOpen]
      congr 1
      simp only [eq_iff_iff]
      constructor
      · intro hne
        omega
      · intro hne
        omega

lemma filter_guard_length (c : String × Nat) (r : String) (hc : c.1 ≠ r) (P : Prop)
    [Decidable P] :
    ((if P then [c] else []).filter (fun p => p.1 = r)).length = 0 := by
  by_cases hp : P
  · rw [if_pos hp]
    simp [hc]
  · rw [if_neg hp]
    rfl

lemma allRows_filter_count (evs : List Ev) (r : String) (hrne : r ≠ "") :
    ∀ (c : String × Nat), c.1 ≠ r → (opensOf evs).count r = 1 →
    ((allRows c evs).filter (fun p => p.1 = r)).length
      = if segTotalAfter r evs ≠ 0 then 1 else 0 := by
  induction evs with
  | nil =>
    intro c _ hcount
    simp [opensOf] at hcount
  | cons e evs ih =>
    intro c hc hcount
    cases e with
    | openRoot q =>
      rw [allRows_open, List.filter_append, List.length_append,
        filter_guard_length c r hc]
      by_cases hqr : q = r
      · subst hqr
        have hz : (opensOf evs).count q = 0 := by
          have hcc : (opensOf (Ev.openRoot q :: evs)).count q
              = (opensOf evs).count q + 1 := by
            simp [opensOf]
          omega
        have hnot : q ∉ opensOf evs := List.count_eq_zero.mp hz
        rw [allRows_filter_seg evs q hrne 0 hnot]
        have hseg : segTotalAfter q (Ev.openRoot q :: evs) = sumUntilOpen evs := by
          simp [segTotalAfter]
        rw [hseg]
        simp
      · have hcount' : (opensOf evs).count r = 1 := by
          have hcc : (opensOf (Ev.openRoot q :: evs)).count r = (opensOf evs).count r := by
            simp [opensOf, List.count_cons]
            intro hq
            exact absurd hq hqr
          omega
        have hseg : segTotalAfter r (Ev.openRoot q :: evs) = segTotalAfter r evs := by
          simp [segTotalAfter, hqr]
        rw [ih (q, 0) (by simpa using hqr) hcount', hseg]
        omega
    | scan h =>
      rw [allRows_scan]
      have hcount' : (opensOf evs).count r = 1 := by
        simpa [opensOf] using hcount
      have hseg : segTotalAfter r (Ev.scan h :: evs) = segTotalAfter r evs := by
        simp [segTotalAfter]
      rw [ih (c.1, c.2 + h.total) hc hcount', hseg]

lemma map_filter_length (rows : List RepoRow) (r : String) :
    ((rows.map (fun row => (row.folder, row.total))).filter (fun p => p.1 = r)).length
      = (rows.filter (fun row => row.folder = r)).length := by
  induction rows with
  | nil => rfl
  | cons row rows ih =>
    simp only [List.map_cons, List.filter_cons]
    by_cases h : row.folder = r
    · simp only [h, decide_eq_true_eq, if_pos, List.length_cons]
      simp only [ih]
    · simp only [h, if_neg]
      simp only [decide_eq_true_eq, h, if_false]
      exact ih

/-- C6 (amended): (1) on encountering a new repository root the previous
accumulator is written if and only if its folder is non-empty AND its
total is non-zero (write_repo is not even called for the initial
accumulator with the empty folder), and is replaced by a fresh all-zero
accumulator for the new root; (2) every repos.csv row of a run has a
non-zero total, so zero-total repositories produce no row; (3) every
repository root opened exactly once during the walk produces exactly one
repos.csv row when the total accumulated in its segment is non-zero, and
none when that total is zero. -/
theorem c6_accumulator_amended :
    (∀ (cfg : Config) (st : ScanState) (root : String),
      flushOpen cfg st root =
        { matchesCsv := st.matchesCsv,
          repos := st.repos ++
            (if st.cur.folder ≠ "" ∧ st.cur.total ≠ 0 then write_repo_rows cfg st.cur else []),
          cur := { empty_repo_totals cfg with folder := root } })
  ∧ (∀ (cfg : Config) (tree : FSTree) (row : RepoRow),
      row ∈ (search_repos cfg tree).repos → row.total ≠ 0)
  ∧ (∀ (cfg : Config) (tree : FSTree) (r : String), r ≠ "" →
      (opensOf (eventsT cfg cfg.folder tree)).count r = 1 →
      ((search_repos cfg tree).repos.filter (fun row => row.folder = r)).length
        = if segTotalAfter r (eventsT cfg cfg.folder tree) ≠ 0 then 1 else 0) := by
  refine ⟨flushOpen_eq, ?_, ?_⟩
  · intro cfg tree row hrow
    have hm : (row.folder, row.total)
        ∈ (search_repos cfg tree).repos.map (fun row => (row.folder, row.total)) :=
      List.mem_map_of_mem _ hrow
    rw [search_repos_proj] at hm
    exact allRows_nonzero _ _ _ hm
  · intro cfg tree r hrne hcount
    rw [← map_filter_length, search_repos_proj]
    exact allRows_filter_count _ r hrne ("", 0) (by simpa using hrne.symm) hcount

/-- Configuration used by the concrete walk scenarios: cache root "/c",
keyword list ["foo"], allow-list [".md"], forward-slash separator, and a
trivial commit-lookup collaborator. -/
def cfgW : Config :=
  { folder := "/c", words := ["foo"], filetypes := [".md"], sep := "/",
    lc := fun _ => ("", "") }

/-- A walk with one keyword hit in an org-level file x.md (outside every
repository root) followed by a repository root r with one hit. -/
def treeW : FSTree :=
  .dir "c"
    (.cons (.dir "org"
      (.cons (.dir "r" .nil [("y.md", "foo")]) .nil)
      [("x.md", "foo")]) .nil)
    []

/-- C6, counterexample: the previous accumulator is NOT written when its
total is non-zero but its folder is empty: flushing the initial
accumulator (folder "", total 1) at the first repository root produces
no repos.csv row, contradicting the claim's "written if and only if its
total is non-zero".  In the corresponding full walk the pre-root hit is
in matches.csv (2 rows) but the only repos.csv row is the repository's
own (total 1). -/
theorem c6_counterexample :
    (flushOpen cfgW
      { matchesCsv := [], repos := [],
        cur := { folder := "", counts := [("foo", 1)], total := 1 } } "/c/org/r").repos = []
  ∧ ((1 : Nat) ≠ 0)
  ∧ (search_repos cfgW treeW).matchesCsv.length = 2
  ∧ (search_repos cfgW treeW).repos.map (fun row => (row.folder, row.total))
      = [("/c/org/r", 1)] := by
  refine ⟨by decide, by decide, by decide, by decide⟩

/-- C6 witness: the amended theorem applied to the concrete walk of treeW,
whose event list opens the root "/c/org/r" exactly once with segment
total 1. -/
theorem c6_witness :
    (("/c/org/r" : String) ≠ "")
  ∧ (opensOf (eventsT cfgW cfgW.folder treeW)).count "/c/org/r" = 1
  ∧ ((search_repos cfgW treeW).repos.filter (fun row => row.folder = "/c/org/r")).length
      = if segTotalAfter "/c/org/r" (eventsT cfgW cfgW.folder treeW) ≠ 0 then 1 else 0 :=
  ⟨by decide, by decide,
    c6_accumulator_amended.2.2 cfgW treeW "/c/org/r" (by decide) (by decide)⟩

/- Pruning facts for the tree walk. -/

/-- Append on the mutual subdirectory lists. -/
def fsAppend : FSList → FSList → FSList
  | .nil, b => b
  | .cons t ts, b => .cons t (fsAppend ts b)

/-- No subdirectory of the list is named ".git". -/
def noGitL : FSList → Bool
  | .nil => true
  | .cons t ts => !(dirNameOf t == ".git") && noGitL ts

/-- No subdirectory of the list is named ".github". -/
def noGithubL : FSList → Bool
  | .nil => true
  | .cons t ts => !(dirNameOf t == ".github") && noGithubL ts

theorem walkSubs_git_irrel (cfg : Config) (root : String) (l : FSList)
    (hng : noGitL l = true) (st : ScanState) (b1 b2 h : Bool) :
    walkSubs cfg st root b1 h l = walkSubs cfg st root b2 h l := by
  cases l with
  | nil => rfl
  | cons t ts =>
    simp only [noGitL, Bool.and_eq_true, Bool.not_eq_true', beq_eq_false_iff_ne,
      ne_eq] at hng
    obtain ⟨hname, hrest⟩ := hng
    have h1 : ∀ b : Bool, ¬ (b = true ∧ dirNameOf t = ".git") := fun b hb => hname hb.2
    simp only [walkSubs, if_neg (h1 b1), if_neg (h1 b2)]
    by_cases h2 : h = true ∧ dirNameOf t = ".github"
    · rw [if_pos h2, if_pos h2]
      exact walkSubs_git_irrel cfg root ts hrest st b1 b2 false
    · rw [if_neg h2, if_neg h2]
      exact walkSubs_git_irrel cfg root ts hrest _ b1 b2 h

theorem walkSubs_github_irrel (cfg : Config) (root : String) (l : FSList)
    (hng : noGithubL l = true) (st : ScanState) (g h1 h2 : Bool) :
    walkSubs cfg st root g h1 l = walkSubs cfg st root g h2 l := by
  cases l with
  | nil => rfl
  | cons t ts =>
    simp only [noGithubL, Bool.and_eq_true, Bool.not_eq_true', beq_eq_false_iff_ne,
      ne_eq] at hng
    obtain ⟨hname, hrest⟩ := hng
    have hh : ∀ b : Bool, ¬ (b = true ∧ dirNameOf t = ".github") := fun b hb => hname hb.2
    by_cases hgit : g = true ∧ dirNameOf t = ".git"
    · simp only [walkSubs, if_pos hgit]
      exact walkSubs_github_irrel cfg root ts hrest st false h1 h2
    · simp only [walkSubs, if_neg hgit, if_neg (hh h1), if_neg (hh h2)]
      exact walkSubs_github_irrel cfg root ts hrest _ g h1 h2

theorem walkSubs_prune_git (cfg : Config) (root : String) (pre : FSList) :
    ∀ (st : ScanState) (h : Bool) (g : FSTree) (post : FSList),
    dirNameOf g = ".git" → noGitL pre = true → noGitL post = true →
    walkSubs cfg st root true h (fsAppend pre (.cons g post))
      = walkSubs cfg st root true h (fsAppend pre post) := by
  cases pre with
  | nil =>
    intro st h g post hg hpre hpost
    simp only [fsAppend, walkSubs]
    rw [if_pos (show True ∧ dirNameOf g = ".git" from ⟨trivial, hg⟩)]
    exact walkSubs_git_irrel cfg root post hpost st false true h
  | cons d pre' =>
    intro st h g post hg hpre hpost
    simp only [noGitL, Bool.and_eq_true, Bool.not_eq_true', beq_eq_false_iff_ne,
      ne_eq] at hpre
    obtain ⟨hd, hpre'⟩ := hpre
    simp only [fsAppend, walkSubs]
    rw [if_neg (show ¬ (True ∧ dirNameOf d = ".git") from fun hb => hd hb.2),
      if_neg (show ¬ (True ∧ dirNameOf d = ".git") from fun hb => hd hb.2)]
    by_cases hgh : h = true ∧ dirNameOf d = ".github"
    · rw [if_pos hgh, if_pos hgh]
      exact walkSubs_prune_git cfg root pre' st false g post hg hpre' hpost
    · rw [if_neg hgh, if_neg hgh]
      exact walkSubs_prune_git cfg root pre' _ h g post hg hpre' hpost

theorem walkSubs_prune_github (cfg : Config) (root : String) (pre : FSList) :
    ∀ (st : ScanState) (b : Bool) (g : FSTree) (post : FSList),
    dirNameOf g = ".github" → noGithubL pre = true → noGithubL post = true →
    walkSubs cfg st root b true (fsAppend pre (.cons g post))
      = walkSubs cfg st root b true (fsAppend pre post) := by
  cases pre with
  | nil =>
    intro st b g post hg hpre hpost
    have hne : dirNameOf g ≠ ".git" := by rw [hg]; decide
    simp only [fsAppend, walkSubs]
    rw [if_neg (show ¬ (b = true ∧ dirNameOf g = ".git") from fun hb => hne hb.2),
      if_pos (show True ∧ dirNameOf g = ".github" from ⟨trivial, hg⟩)]
    exact walkSubs_github_irrel cfg root post hpost st b false true
  | cons d pre' =>
    intro st b g post hg hpre hpost
    simp only [noGithubL, Bool.and_eq_true, Bool.not_eq_true', beq_eq_false_iff_ne,
      ne_eq] at hpre
    obtain ⟨hd, hpre'⟩ := hpre
    simp only [fsAppend, walkSubs]
    by_cases hbg : b = true ∧ dirNameOf d = ".git"
    · rw [if_pos hbg, if_pos hbg]
      exact walkSubs_prune_github cfg root pre' st false g post hg hpre' hpost
    · rw [if_neg hbg, if_neg hbg,
        if_neg (show ¬ (True ∧ dirNameOf d = ".github") from fun hb => hd hb.2),
        if_neg (show ¬ (True ∧ dirNameOf d = ".github") from fun hb => hd hb.2)]
      exact walkSubs_prune_github cfg root pre' _ b g post hg hpre' hpost

/-- C3 (amended): (1) a walk root whose path contains the backslash-
delimited substring "\vendor\" is skipped whole: no repo-root boundary
handling, none of ITS OWN files scanned, and descent continues into all
its subdirectories unpruned — so vendor exclusion applies only to
directories strictly below a vendor segment under the backslash
convention, not to the vendor directory's own files and not to
forward-slash paths; (2) at every non-vendor root the first (hence, in a
real directory listing with unique names, the only) ".git" subdirectory
entry is pruned from descent, regardless of any ".github" sibling: the
walk result is the same as if that subdirectory (with whatever subtree)
were absent, so no file beneath it is scanned and none of its hits
contributes to matches.csv or any repository total; (3) the same for the
first ".github" subdirectory entry, regardless of any ".git" sibling. -/
theorem c3_vendor_git_amended :
    (∀ (cfg : Config) (st : ScanState) (root nm : String) (subs : FSList)
      (files : List (String × String)), vendorSkip root = true →
      walkTree cfg st root (.dir nm subs files) = walkSubs cfg st root false false subs)
  ∧ (∀ (cfg : Config) (st : ScanState) (root nm : String) (pre : FSList) (g : FSTree)
      (post : FSList) (files : List (String × String)), vendorSkip root = false →
      dirNameOf g = ".git" → noGitL pre = true → noGitL post = true →
      walkTree cfg st root (.dir nm (fsAppend pre (.cons g post)) files)
        = walkTree cfg st root (.dir nm (fsAppend pre post) files))
  ∧ (∀ (cfg : Config) (st : ScanState) (root nm : String) (pre : FSList) (g : FSTree)
      (post : FSList) (files : List (String × String)), vendorSkip root = false →
      dirNameOf g = ".github" → noGithubL pre = true → noGithubL post = true →
      walkTree cfg st root (.dir nm (fsAppend pre (.cons g post)) files)
        = walkTree cfg st root (.dir nm (fsAppend pre post) files)) := by
  refine ⟨?_, ?_, ?_⟩
  · intro cfg st root nm subs files hv
    simp only [walkTree, hv, if_true]
  · intro cfg st root nm pre g post files hv hg hpre hpost
    simp only [walkTree, hv, Bool.false_eq_true, if_false]
    exact walkSubs_prune_git cfg root pre _ true g post hg hpre hpost
  · intro cfg st root nm pre g post files hv hg hpre hpost
    simp only [walkTree, hv, Bool.false_eq_true, if_false]
    exact walkSubs_prune_github cfg root pre _ true g post hg hpre hpost

/-- A forward-slash walk with a keyword hit inside org/repo/vendor/. -/
def treeV : FSTree :=
  .dir "c"
    (.cons (.dir "org"
      (.cons (.dir "repo"
        (.cons (.dir "vendor" .nil [("a.md", "foo")]) .nil)
        []) .nil)
      []) .nil)
    []

/-- Backslash-separator configuration for the vendor counterexample. -/
def cfgB : Config :=
  { folder := "C:\\c", words := ["foo"], filetypes := [".md"], sep := "\\",
    lc := fun _ => ("", "") }

/-- The same layout as treeV, walked with backslash separators. -/
def treeVB : FSTree :=
  .dir "c"
    (.cons (.dir "org"
      (.cons (.dir "repo"
        (.cons (.dir "vendor" .nil [("a.md", "foo")]) .nil)
        []) .nil)
      []) .nil)
    []

/-- C3, counterexample: files beneath a directory with a vendor path
segment DO get scanned and DO contribute to matches.csv — (1) under the
forward-slash separator convention the "\vendor\" test never fires, and
(2) even under the backslash convention the vendor directory's own files
are scanned, because the root path of the vendor directory itself ends
in "vendor" without a trailing backslash. -/
theorem c3_counterexample :
    (search_repos cfgW treeV).matchesCsv.map (fun row => row.url)
      = [file_url "/c/org/repo/vendor/a.md"]
  ∧ (search_repos cfgB treeVB).matchesCsv.map (fun row => row.url)
      = [file_url "C:\\c\\org\\repo\\vendor\\a.md"]
  ∧ (search_repos cfgW treeV).matchesCsv.length = 1
  ∧ (search_repos cfgB treeVB).matchesCsv.length = 1 := by
  refine ⟨by decide, by decide, by decide, by decide⟩

/-- State used by the C3 witness. -/
def st0W : ScanState :=
  { matchesCsv := [], repos := [], cur := empty_repo_totals cfgW }

/-- C3 witness: the amended theorem applied to a concrete vendor root, to
a concrete ".git" subdirectory with content whose siblings include a
".github" directory, and to a concrete ".github" subdirectory with
content whose siblings include a ".git" directory — the layout of every
cloned repository that has a .github folder. -/
theorem c3_witness :
    vendorSkip "C:\\c\\org\\repo\\vendor\\sub" = true
  ∧ walkTree cfgB st0W "C:\\c\\org\\repo\\vendor\\sub" (.dir "sub" .nil [("a.md", "foo")])
      = walkSubs cfgB st0W "C:\\c\\org\\repo\\vendor\\sub" false false .nil
  ∧ walkTree cfgW st0W "/c/org"
      (.dir "org"
        (fsAppend .nil (.cons (.dir ".git" .nil [("s.md", "foo")])
          (.cons (.dir ".github" .nil []) (.cons (.dir "d" .nil []) .nil)))) [])
      = walkTree cfgW st0W "/c/org"
        (.dir "org"
          (fsAppend .nil (.cons (.dir ".github" .nil []) (.cons (.dir "d" .nil []) .nil))) [])
  ∧ walkTree cfgW st0W "/c/org"
      (.dir "org"
        (fsAppend (.cons (.dir ".git" .nil []) .nil)
          (.cons (.dir ".github" .nil [("t.md", "foo")])
            (.cons (.dir "d" .nil []) .nil))) [])
      = walkTree cfgW st0W "/c/org"
        (.dir "org"
          (fsAppend (.cons (.dir ".git" .nil []) .nil)
            (.cons (.dir "d" .nil []) .nil)) []) :=
  ⟨by decide,
    c3_vendor_git_amended.1 cfgB st0W "C:\\c\\org\\repo\\vendor\\sub" "sub" .nil
      [("a.md", "foo")] (by decide),
    c3_vendor_git_amended.2.1 cfgW st0W "/c/org" "org" .nil
      (.dir ".git" .nil [("s.md", "foo")])
      (.cons (.dir ".github" .nil []) (.cons (.dir "d" .nil []) .nil)) []
      (by decide) rfl rfl (by decide),
    c3_vendor_git_amended.2.2 cfgW st0W "/c/org" "org" (.cons (.dir ".git" .nil []) .nil)
      (.dir ".github" .nil [("t.md", "foo")])
      (.cons (.dir "d" .nil []) .nil) []
      (by decide) rfl (by decide) (by decide)⟩

/- Pre-root scans: written to matches.csv, never attributed to repos.csv. -/

lemma flushOpen_mk (cfg : Config) (m : List MatchRow) (r : List RepoRow)
    (c : RepoTotals) (root : String) :
    flushOpen cfg (ScanState.mk m r c) root
      = ScanState.mk m
          (r ++ (if c.folder ≠ "" ∧ c.total ≠ 0 then write_repo_rows cfg c else []))
          (RepoTotals.mk root ((empty_repo_totals cfg).counts) ((empty_repo_totals cfg).total)) := by
  have h := flushOpen_eq cfg (ScanState.mk m r c) root
  exact h

lemma scanStep_mk (m : List MatchRow) (r : List RepoRow) (c : RepoTotals) (h : Hits) :
    scanStep (ScanState.mk m r c) h
      = if h.total > 0 then ScanState.mk (m ++ [mkMatchRow h]) r (addHits c h)
        else ScanState.mk m r c := by
  unfold scanStep
  by_cases hpos : h.total > 0
  · simp only [if_pos hpos]
  · simp only [if_neg hpos]

lemma applyEvents_shift (cfg : Config) (evs : List Ev) :
    ∀ (m : List MatchRow) (r : List RepoRow) (c : RepoTotals),
    applyEvents cfg (ScanState.mk m r c) evs
      = ScanState.mk
          (m ++ (applyEvents cfg (ScanState.mk [] [] c) evs).matchesCsv)
          (r ++ (applyEvents cfg (ScanState.mk [] [] c) evs).repos)
          ((applyEvents cfg (ScanState.mk [] [] c) evs).cur) := by
  induction evs with
  | nil =>
    intro m r c
    simp [applyEvents]
  | cons e evs ih =>
    intro m r c
    have hstep : ∀ st : ScanState,
        applyEvents cfg st (e :: evs) = applyEvents cfg (evStep cfg st e) evs := fun _ => rfl
    rw [hstep, hstep]
    cases e with
    | openRoot q =>
      have he : ∀ st : ScanState, evStep cfg st (Ev.openRoot q) = flushOpen cfg st q :=
        fun _ => rfl
      rw [he, he, flushOpen_mk, flushOpen_mk]
      simp only [List.nil_append]
      rw [ih m (r ++ (if c.folder ≠ "" ∧ c.total ≠ 0 then write_repo_rows cfg c else []))
          (RepoTotals.mk q ((empty_repo_totals cfg).counts) ((empty_repo_totals cfg).total))]
      rw [ih [] (if c.folder ≠ "" ∧ c.total ≠ 0 then write_repo_rows cfg c else [])
          (RepoTotals.mk q ((empty_repo_totals cfg).counts) ((empty_repo_totals cfg).total))]
      simp [List.append_assoc]
    | scan h =>
      have he : ∀ st : ScanState, evStep cfg st (Ev.scan h) = scanStep st h := fun _ => rfl
      rw [he, he, scanStep_mk, scanStep_mk]
      by_cases hpos : h.total > 0
      · rw [if_pos hpos, if_pos hpos]
        simp only [List.nil_append]
        rw [ih (m ++ [mkMatchRow h]) r (addHits c h)]
        rw [ih [mkMatchRow h] [] (addHits c h)]
        simp [List.append_assoc]
      · rw [if_neg hpos, if_neg hpos]
        exact ih m r c

/-- The matches.csv rows the per-file step writes for a list of scan
events: one row per scanned record with a positive total. -/
def preHitRows (pre : List Ev) : List MatchRow :=
  pre.filterMap (fun e => match e with
    | Ev.scan h => if h.total > 0 then some (mkMatchRow h) else none
    | Ev.openRoot _ => none)

lemma applyEvents_scans (cfg : Config) (pre : List Ev)
    (hpre : ∀ e ∈ pre, ∃ h, e = Ev.scan h) : ∀ (st : ScanState),
    (applyEvents cfg st pre).matchesCsv = st.matchesCsv ++ preHitRows pre
  ∧ (applyEvents cfg st pre).repos = st.repos
  ∧ (applyEvents cfg st pre).cur.folder = st.cur.folder := by
  induction pre with
  | nil =>
    intro st
    simp [applyEvents, preHitRows]
  | cons e pre ih =>
    intro st
    obtain ⟨h, rfl⟩ := hpre e (by simp)
    have hpre' : ∀ e ∈ pre, ∃ h, e = Ev.scan h := fun e he => hpre e (by simp [he])
    have hstep : applyEvents cfg st (Ev.scan h :: pre)
        = applyEvents cfg (scanStep st h) pre := rfl
    rw [hstep]
    have hrows : preHitRows (Ev.scan h :: pre)
        = (if h.total > 0 then [mkMatchRow h] else []) ++ preHitRows pre := by
      by_cases hpos : h.total > 0
      · simp [preHitRows, List.filterMap_cons, hpos]
      · simp [preHitRows, List.filterMap_cons, hpos]
    obtain ⟨ihm, ihr, ihc⟩ := ih hpre' (scanStep st h)
    rw [hrows]
    unfold scanStep at ihm ihr ihc ⊢
    by_cases hpos : h.total > 0
    · rw [if_pos hpos] at ihm ihr ihc ⊢
      refine ⟨?_, by rw [ihr], ?_⟩
      · rw [ihm, if_pos hpos]
        simp
      · rw [ihc]
        simp [addHits]
    · rw [if_neg hpos] at ihm ihr ihc ⊢
      refine ⟨?_, by rw [ihr], by rw [ihc]⟩
      rw [ihm, if_neg hpos]
      simp

/-- The state a run produces when started at a freshly opened repository
root r over the remaining events, final write included. -/
def runFrom (cfg : Config) (r : String) (evs : List Ev) : ScanState :=
  let st := applyEvents cfg
    { matchesCsv := [], repos := [],
      cur := { folder := r, counts := (empty_repo_totals cfg).counts,
               total := (empty_repo_totals cfg).total } } evs
  { st with repos := st.repos ++ write_repo_rows cfg st.cur }

/-- C10: when the walk scans files with hits before the first repository
root is opened (files with fewer than two separators below the cache
root), those hits are written to matches.csv as rows preceding the rest
of the run's rows, yet repos.csv is exactly what the run from the first
repository root onwards produces: the pre-root hits accumulate into the
initial accumulator whose folder is empty, which the first repo-root
flush discards unwritten. -/
theorem c10_preroot_hits (cfg : Config) (tree : FSTree) (pre : List Ev) (r : String)
    (rest : List Ev)
    (hsplit : eventsT cfg cfg.folder tree = pre ++ Ev.openRoot r :: rest)
    (hpre : ∀ e ∈ pre, ∃ h, e = Ev.scan h) :
    (search_repos cfg tree).matchesCsv = preHitRows pre ++ (runFrom cfg r rest).matchesCsv
  ∧ (search_repos cfg tree).repos = (runFrom cfg r rest).repos := by
  rw [search_repos_eq_events]
  simp only
  rw [hsplit, applyEvents_append]
  obtain ⟨hm, hr, hf⟩ := applyEvents_scans cfg pre hpre
    { matchesCsv := [], repos := [], cur := empty_repo_totals cfg }
  have hstep : applyEvents cfg
      (applyEvents cfg { matchesCsv := [], repos := [], cur := empty_repo_totals cfg } pre)
      (Ev.openRoot r :: rest)
      = applyEvents cfg
        (flushOpen cfg
          (applyEvents cfg { matchesCsv := [], repos := [], cur := empty_repo_totals cfg } pre)
          r) rest := rfl
  rw [hstep]
  have hff : (applyEvents cfg
      { matchesCsv := [], repos := [], cur := empty_repo_totals cfg } pre).cur.folder
        = "" := by
    rw [hf]
    rfl
  have hflush : flushOpen cfg
      (applyEvents cfg { matchesCsv := [], repos := [], cur := empty_repo_totals cfg } pre) r
      = { matchesCsv := preHitRows pre, repos := [],
          cur := { folder := r, counts := (empty_repo_totals cfg).counts,
                   total := (empty_repo_totals cfg).total } } := by
    rw [flushOpen_eq, hm, hr, hff]
    simp
  rw [hflush, applyEvents_shift]
  unfold runFrom
  simp only
  constructor
  · trivial
  · simp

/-- C10 witness: the theorem applied to the concrete walk of treeW, whose
event list is one pre-root scan followed by the opening of "/c/org/r". -/
theorem c10_witness :
    eventsT cfgW cfgW.folder treeW
      = [Ev.scan (search_file ["foo"] "/c/org/x.md" "foo"), Ev.openRoot "/c/org/r",
         Ev.scan (search_file ["foo"] "/c/org/r/y.md" "foo")]
  ∧ (search_repos cfgW treeW).matchesCsv
      = preHitRows [Ev.scan (search_file ["foo"] "/c/org/x.md" "foo")]
        ++ (runFrom cfgW "/c/org/r" [Ev.scan (search_file ["foo"] "/c/org/r/y.md" "foo")]).matchesCsv
  ∧ (search_repos cfgW treeW).repos
      = (runFrom cfgW "/c/org/r" [Ev.scan (search_file ["foo"] "/c/org/r/y.md" "foo")]).repos := by
  have hsplit : eventsT cfgW cfgW.folder treeW
      = [Ev.scan (search_file ["foo"] "/c/org/x.md" "foo")]
        ++ Ev.openRoot "/c/org/r" :: [Ev.scan (search_file ["foo"] "/c/org/r/y.md" "foo")] := by
    decide
  have hpre : ∀ e ∈ [Ev.scan (search_file ["foo"] "/c/org/x.md" "foo")],
      ∃ h, e = Ev.scan h := by
    intro e he
    simp only [List.mem_singleton] at he
    exact ⟨_, he⟩
  obtain ⟨h1, h2⟩ := c10_preroot_hits cfgW treeW
    [Ev.scan (search_file ["foo"] "/c/org/x.md" "foo")] "/c/org/r"
    [Ev.scan (search_file ["foo"] "/c/org/r/y.md" "foo")] hsplit hpre
  exact ⟨by simpa using hsplit, h1, h2⟩
